import Mathlib

/-!
# Verification of the `smcheema/allocator` replica-placement engine

This file gives a shallow embedding, in Lean 4, of the Go sources of the
allocator repository and proves/refutes the claims of its natural-language
specification.

The embedding covers:

* the domain model and cluster-state API (`cluster.go`, `replica.go`),
  with Go panics modelled explicitly as a `panicked` outcome;
* the CP-SAT model builder and the solve orchestrator
  (`allocator.go`, i.e. the `Solve`/shard variant: `allocate`,
  `adhereToResourcesAndBalance`, `adhereToNodeTags`,
  `adhereToChurnConstraint`), as pure state-passing functions that produce
  a deeply-embedded constraint model;
* the solver facade as an oracle `Model → SolverResp`; soundness of an
  oracle means that any assignment it reports satisfies the model it was
  given, which is the contract of the CP-SAT engine.

Go maps are embedded as association lists.  The list order plays the role
of the (unspecified) map iteration order of the Go runtime: every loop of
the Go code that ranges over a map ranges here over the corresponding
list, so that facts that hold for every list order hold for every possible
iteration order, and two lists with the same entries in different orders
exhibit two possible runs on the same logical input.
-/

namespace AllocSpec

/-- `Resource` (cluster.go): closed enumeration `DiskResource`, `QPS`. -/
inductive Resource where
  | disk
  | qps
deriving DecidableEq, Repr

/-- Go's `%d` rendering of the `Resource` enum (DiskResource = 0, QPS = 1). -/
def Resource.toInt : Resource → Int
  | .disk => 0
  | .qps => 1

/-- Outcome of running a Go statement/function that can panic. -/
inductive GoRes (α : Type) where
  | ok (a : α)
  | panicked (msg : String)
deriving DecidableEq, Repr

/-- Association-list lookup keyed by `Resource` (Go `map[Resource]int64`). -/
def lookupRes : List (Resource × Int) → Resource → Option Int
  | [], _ => none
  | p :: rest, re => if p.1 = re then some p.2 else lookupRes rest re

/-- `node` (node.go): id, tag set, resource capacities.  Tags are a Go
`map[string]struct{}`; only membership matters, so a list of strings. -/
structure NodeV where
  id : Int
  tags : List String
  resources : List (Resource × Int)
deriving DecidableEq, Repr

/-- `shard`/`replica` (replica.go): id, replication factor, tag set,
resource demands.  The tag map of a fresh replica is a *nil* Go map, which
differs observably from an empty one (writing to it panics), hence
`Option`: `none` is the nil map. -/
structure ShardV where
  id : Int
  rf : Int
  tags : Option (List String)
  demands : List (Resource × Int)
deriving DecidableEq, Repr

/-- The tag list the allocator sees: ranging over a nil map yields
nothing, so `none` reads as the empty set. -/
def ShardV.tagList (s : ShardV) : List String := s.tags.getD []

/-- `ClusterState` (cluster.go): nodes, shards and the prior assignment.
Each map is an association list whose order stands for the Go map
iteration order; a nil `currentAssignment` map is `none`. -/
structure ClusterState where
  nodes : List NodeV
  shards : List ShardV
  currentAssignment : Option (List (Int × List Int))
deriving DecidableEq, Repr

/-- Go map read `cs.nodes[k]` (yields the zero value `nil` on a miss,
hence `Option`). -/
def lookupNode : List NodeV → Int → Option NodeV
  | [], _ => none
  | n :: rest, k => if n.id = k then some n else lookupNode rest k

/-- Go map read `cs.shards[k]`. -/
def lookupShardL : List ShardV → Int → Option ShardV
  | [], _ => none
  | s :: rest, k => if s.id = k then some s else lookupShardL rest k

/-- Go map read on an `Int`-keyed association list. -/
def lookupKey {β : Type} : List (Int × β) → Int → Option β
  | [], _ => none
  | p :: rest, k => if p.1 = k then some p.2 else lookupKey rest k

/-- Go map write `m[k] = v` on an association list: overwrite the entry in
place if the key is present, append otherwise. -/
def mapSet {β : Type} : List (Int × β) → Int → β → List (Int × β)
  | [], k, v => [(k, v)]
  | p :: rest, k, v => if p.1 = k then (k, v) :: rest else p :: mapSet rest k v

/-- `shardTagsAreSubsetOfNodeTags` (allocator.go): every shard tag is
present among the node's tags. -/
def tagsSubset (shardTags nodeTags : List String) : Bool :=
  shardTags.all fun t => nodeTags.contains t

/-! ## The deeply-embedded CP-SAT model

`solver.Model` is embedded as the record of everything the Go code ever
hands to the facade: integer variables (with domain and name), boolean
literals, intervals, constraints and minimization objectives.  Variables,
literals and intervals are referred to by their creation index. -/

/-- An integer decision variable: `NewIntVar` / `NewIntVarFromDomain` /
`NewConstant` (a constant is a variable with a point domain). -/
structure IntVarD where
  lo : Int
  hi : Int
  name : String
deriving DecidableEq, Repr

/-- `NewInterval(start, end, size, name)`: indices of the three variables. -/
structure IntervalD where
  start : Nat
  stop : Nat
  size : Nat
  name : String
deriving DecidableEq, Repr

/-- A reference to a literal, possibly negated (`lit.Not()`). -/
structure LitRef where
  idx : Nat
  negated : Bool
deriving DecidableEq, Repr

/-- The constraints the allocator posts. -/
inductive Constr where
  | allDiff (vars : List Nat)
  | forbidden (vars : List Nat) (tuples : List (List Int))
  | cumul (cap : Nat) (tasks : List Nat) (dems : List Nat)
  | linearEnf (vars : List Nat) (coeffs : List Int) (off : Int)
      (dlo : Int) (dhi : Int) (enf : List LitRef)
  | atMostK (k : Int) (lits : List LitRef)
deriving DecidableEq, Repr

/-- Objective terms registered through `Minimize(Sum(...))`. -/
inductive ObjTerm where
  | minimizeVars (vars : List Nat)
  | minimizeLits (lits : List LitRef)
deriving DecidableEq, Repr

/-- The assembled model. -/
structure Model where
  modelName : String
  vars : List IntVarD
  lits : List String
  intervals : List IntervalD
  constraints : List Constr
  objectives : List ObjTerm
deriving DecidableEq, Repr

def Model.empty (name : String) : Model :=
  { modelName := name, vars := [], lits := [], intervals := [],
    constraints := [], objectives := [] }

/-- `model.NewIntVarFromDomain(NewDomain(lo, hi), name)`; also backs
`NewIntVar` and `NewConstant`. -/
def Model.newIntVar (m : Model) (lo hi : Int) (name : String) : Model × Nat :=
  ({ m with vars := m.vars ++ [⟨lo, hi, name⟩] }, m.vars.length)

/-- `model.NewConstant(v, name)`. -/
def Model.newConstant (m : Model) (v : Int) (name : String) : Model × Nat :=
  m.newIntVar v v name

/-- `model.NewLiteral(name)`. -/
def Model.newLiteral (m : Model) (name : String) : Model × Nat :=
  ({ m with lits := m.lits ++ [name] }, m.lits.length)

/-- `model.NewInterval(start, end, size, name)`. -/
def Model.newInterval (m : Model) (start stop size : Nat) (name : String) :
    Model × Nat :=
  ({ m with intervals := m.intervals ++ [⟨start, stop, size, name⟩] },
    m.intervals.length)

/-- `model.AddConstraints(c)`. -/
def Model.addConstr (m : Model) (c : Constr) : Model :=
  { m with constraints := m.constraints ++ [c] }

/-- `model.Minimize(e)`. -/
def Model.addObjective (m : Model) (o : ObjTerm) : Model :=
  { m with objectives := m.objectives ++ [o] }

/-! ## Satisfaction semantics

An assignment is a pair of total maps `σ` (integer variables, by index)
and `β` (literals, by index).  `Model.Satisfies` says the assignment
satisfies every domain, interval relation and constraint of the model;
this is what the CP-SAT facade guarantees of any `Feasible`/`Optimal`
response. -/

/-- Value of a possibly-negated literal reference. -/
def litVal (β : Nat → Bool) (l : LitRef) : Bool :=
  if l.negated then !(β l.idx) else β l.idx

/-- Load contributed at point `x` by the tasks of a cumulative
constraint: the sum of demands of the intervals covering `x`. -/
def loadAt (ivs : List IntervalD) (σ : Nat → Int) (tasks dems : List Nat)
    (x : Int) : Int :=
  ((tasks.zip dems).filter fun td =>
      match ivs[td.1]? with
      | some iv => decide (σ iv.start ≤ x) && decide (x < σ iv.stop)
      | none => false).foldl (fun acc td => acc + σ td.2) 0

/-- Semantics of a single constraint. -/
def constrSat (ivs : List IntervalD) (σ : Nat → Int) (β : Nat → Bool) :
    Constr → Prop
  | .allDiff vs => (vs.map σ).Nodup
  | .forbidden vs tuples => ∀ t ∈ tuples, vs.map σ ≠ t
  | .cumul cap tasks dems =>
      0 ≤ σ cap ∧
      ∀ ti ∈ tasks,
        ∀ iv ∈ (ivs[ti]?).toList, loadAt ivs σ tasks dems (σ iv.start) ≤ σ cap
  | .linearEnf vs coeffs off dlo dhi enf =>
      (∀ l ∈ enf, litVal β l = true) →
        dlo ≤ (List.zipWith (fun c v => c * σ v) coeffs vs).sum + off ∧
          (List.zipWith (fun c v => c * σ v) coeffs vs).sum + off ≤ dhi
  | .atMostK k lits => (lits.countP (litVal β) : Int) ≤ k

instance constrSatDecidable (ivs : List IntervalD) (σ : Nat → Int)
    (β : Nat → Bool) (c : Constr) : Decidable (constrSat ivs σ β c) := by
  cases c <;> simp only [constrSat] <;> infer_instance

/-- The assignment satisfies the whole model. -/
def Model.Satisfies (m : Model) (σ : Nat → Int) (β : Nat → Bool) : Prop :=
  (∀ i d, m.vars[i]? = some d → d.lo ≤ σ i ∧ σ i ≤ d.hi) ∧
  (∀ iv ∈ m.intervals, σ iv.start + σ iv.size = σ iv.stop) ∧
  (∀ c ∈ m.constraints, constrSat m.intervals σ β c)

theorem varsDom_iff (m : Model) (σ : Nat → Int) :
    (∀ p ∈ m.vars.enum, ((p.2 : IntVarD)).lo ≤ σ p.1 ∧ σ p.1 ≤ (p.2).hi) ↔
      ∀ i d, m.vars[i]? = some d → d.lo ≤ σ i ∧ σ i ≤ d.hi := by
  constructor
  · intro h i d hget
    exact h (i, d) (List.mem_enum_iff_getElem?.mpr hget)
  · rintro h ⟨i, d⟩ hp
    exact h i d (List.mem_enum_iff_getElem?.mp hp)

instance (m : Model) (σ : Nat → Int) (β : Nat → Bool) :
    Decidable (m.Satisfies σ β) :=
  decidable_of_iff
    ((∀ p ∈ m.vars.enum, ((p.2 : IntVarD)).lo ≤ σ p.1 ∧ σ p.1 ≤ (p.2).hi) ∧
      (∀ iv ∈ m.intervals, σ iv.start + σ iv.size = σ iv.stop) ∧
      (∀ c ∈ m.constraints, constrSat m.intervals σ β c))
    (by rw [Model.Satisfies, varsDom_iff])

/-! ## Configuration (configuration.go)

`noMaxChurn = -1`; the default configuration has churn disabled and the
10-second search timeout (durations are nanosecond counts, irrelevant to
the logic but kept for fidelity). -/

def noMaxChurn : Int := -1

def defaultTimeout : Int := 10 * 1000000000

/-- `configuration` (configuration.go). -/
structure Configur where
  withResources : Bool
  withTagAffinity : Bool
  withMinimalChurn : Bool
  maxChurn : Int
  searchTimeout : Int
  verboseLogging : Bool
deriving DecidableEq, Repr

/-- The defaults installed by `newAllocator` before options run. -/
def defaultConfiguration : Configur :=
  { withResources := false, withTagAffinity := false,
    withMinimalChurn := false, maxChurn := noMaxChurn,
    searchTimeout := defaultTimeout, verboseLogging := false }

/-- `Option` closures (`WithResources`, `WithTagMatching`, ...) are
last-writer-wins field updates; `newAllocator` folds them over the
defaults. -/
def newConfiguration (opts : List (Configur → Configur)) : Configur :=
  opts.foldl (fun c o => o c) defaultConfiguration

def withResourcesOpt : Configur → Configur :=
  fun c => { c with withResources := true }

def withTagMatchingOpt : Configur → Configur :=
  fun c => { c with withTagAffinity := true }

def withChurnMinimizedOpt : Configur → Configur :=
  fun c => { c with withMinimalChurn := true }

def withMaxChurnOpt (k : Int) : Configur → Configur :=
  fun c => { c with maxChurn := k }

/-! ## The allocator state and the model-building phases (allocator.go)

The Go `allocator` struct embeds `*ClusterState` together with the model
and the assignment map; every phase below receives the whole state and
returns it, so that the frame claim (the cluster state is never mutated)
is a theorem about these functions rather than a convention. -/

/-- The `allocator` struct. -/
structure AllocSt where
  cs : ClusterState
  cfg : Configur
  model : Model
  assignment : List (Int × List Nat)
deriving Repr

/-- The typed failures surfaced by `allocate` (`fmt.Errorf` sites of
allocator.go, one per message). -/
inductive AllocErr where
  | rfGreaterThanClusterSize (ids : List Int)
  | insufficientCapacity
  | waywardTags (ids : List Int)
  | invalidModel
  | notSolved
deriving DecidableEq, Repr

/-- Outcome of a model-building step, carrying the value/state as it
stands when control leaves (also on failure and panic, approximating the
Go heap; a half-initialized `assignment[r.id]` slice at a panic is
dropped, which no claim observes). -/
inductive BOut (α : Type) where
  | ok (a : α)
  | fail (a : α) (e : AllocErr)
  | panicked (a : α) (msg : String)

/-- Sequencing of build steps: failures and panics short-circuit. -/
def BOut.andThen {α : Type} (x : BOut α) (f : α → BOut α) : BOut α :=
  match x with
  | .ok a => f a
  | .fail a e => .fail a e
  | .panicked a s => .panicked a s

/-- The state carried by a build outcome, whichever way it went. -/
def BOut.state {α : Type} : BOut α → α
  | .ok a => a
  | .fail a _ => a
  | .panicked a _ => a

/-- Intermediate outcome for helpers that can panic but not fail. -/
inductive GoStep (α : Type) where
  | ok (a : α)
  | panicked (a : α) (msg : String)

/-! Go runtime panic messages raised by the allocator's code paths. -/

def panicNilDeref : String :=
  "runtime error: invalid memory address or nil pointer dereference"

def panicMakeSlice : String := "makeslice: len out of range"

def panicIndexRange : String := "runtime error: index out of range"

def panicMissingPrior : String := "missing/invalid prior assignment"

/-! ### Phase 1 — decision variables, per-shard all-different, rf check

`allocate` lines 521–539: one integer variable per replica slot, with
domain `[a.nodes[0].id, a.nodes[len(a.nodes)-1].id]`; shards whose `rf`
exceeds the node count are collected and reported *after* the loop. -/

def allocVarName (rid : Int) : String :=
  "Allocation var for r.id:" ++ toString rid ++ "."

/-- The inner `for j := range a.assignment[r.id]` loop: each iteration
reads `a.nodes[0]` and `a.nodes[len-1]` (a nil-pointer dereference if the
key is absent) and creates one decision variable. -/
def buildShardVarsGo (nodes : List NodeV) (rid : Int) :
    Nat → Model → GoStep (Model × List Nat)
  | 0, m => .ok (m, [])
  | Nat.succ k, m =>
    match lookupNode nodes 0, lookupNode nodes ((nodes.length : Int) - 1) with
    | some n0, some nLast =>
        let p := m.newIntVar n0.id nLast.id (allocVarName rid)
        match buildShardVarsGo nodes rid k p.1 with
        | .ok (m3, vs) => .ok (m3, p.2 :: vs)
        | .panicked a s => .panicked a s
    | _, _ => .panicked (m, []) panicNilDeref

/-- Accumulator of the phase-1 loop. -/
structure P1Acc where
  model : Model
  assignment : List (Int × List Nat)
  badIds : List Int

/-- One iteration of the phase-1 loop body for shard `r`. -/
def phase1Step (cs : ClusterState) (acc : P1Acc) (r : ShardV) : GoStep P1Acc :=
  let badIds :=
    if (cs.nodes.length : Int) < r.rf then acc.badIds ++ [r.id] else acc.badIds
  if r.rf < 0 then .panicked acc panicMakeSlice
  else
    match buildShardVarsGo cs.nodes r.id r.rf.toNat acc.model with
    | .panicked a s => .panicked { acc with model := a.1 } s
    | .ok (m, vs) =>
        .ok ⟨m.addConstr (.allDiff vs), mapSet acc.assignment r.id vs, badIds⟩

def phase1Go (cs : ClusterState) : List ShardV → P1Acc → GoStep P1Acc
  | [], acc => .ok acc
  | r :: rest, acc =>
      match phase1Step cs acc r with
      | .panicked a s => .panicked a s
      | .ok acc2 => phase1Go cs rest acc2

/-- Phase 1 over the allocator state, including the deferred
`rangeIdsWithInfeasibleRF` error. -/
def phase1 (st : AllocSt) : BOut AllocSt :=
  match phase1Go st.cs st.cs.shards ⟨st.model, st.assignment, []⟩ with
  | .panicked a s =>
      .panicked { st with model := a.model, assignment := a.assignment } s
  | .ok acc =>
      let st1 : AllocSt := { st with model := acc.model, assignment := acc.assignment }
      if acc.badIds = [] then .ok st1
      else .fail st1 (.rfGreaterThanClusterSize acc.badIds)

/-! ### Phase 2 — capacity and balancing (`adhereToResourcesAndBalance`)

For each resource in order `[DiskResource, QPS]`: total demand, raw
capacity (node 0's explicit capacity, else the total demand), the eager
feasibility check, then one unit-width interval per replica slot feeding
a cumulative constraint under a minimized capacity variable. -/

/-- `r.demands[re]` (missing key reads as 0). -/
def ShardV.demandOf (r : ShardV) (re : Resource) : Int :=
  (lookupRes r.demands re).getD 0

/-- The `rawDemand` accumulation loop (`for _, r := range a.shards`). -/
def totalDemandCode (cs : ClusterState) (re : Resource) : Int :=
  cs.shards.foldl (fun acc r => acc + r.demandOf re * r.rf) 0

/-- The specification-level total demand: `Σₛ s.demands[re] · s.rf`. -/
def totalDemandSpec (cs : ClusterState) (re : Resource) : Int :=
  (cs.shards.map fun r => r.demandOf re * r.rf).sum

/-- The `rawCapacity` computation (allocator.go lines 398–409): node 0's
explicit capacity for `re` if set, otherwise the just-computed raw
demand.  Reading `a.nodes[0]` when node key 0 is absent dereferences a
nil pointer. -/
def rawCapacityCode (cs : ClusterState) (re : Resource) : GoRes Int :=
  match lookupNode cs.nodes 0 with
  | none => .panicked panicNilDeref
  | some n0 =>
      match lookupRes n0.resources re with
      | some c => .ok c
      | none => .ok (totalDemandCode cs re)

def capVarName (re : Resource) : String :=
  "IV used to minimize variance and enforce capacity constraint for Resource: "
    ++ toString re.toInt

def resIntervalName (rid : Int) (i : Nat) : String :=
  "Interval representing demands placed on node by shard: " ++ toString rid
    ++ ", shard: " ++ toString (Int.ofNat i)

def resDemandName (rid : Int) : String :=
  "Demand for r.id:" ++ toString rid ++ "."

/-- Accumulator for the interval/demand construction loop. -/
structure ResAcc where
  model : Model
  tasks : List Nat
  dems : List Nat

/-- Inner loop `for i, id := range nIds` of the interval construction for
one assignment entry. -/
def resSlotsGo (cs : ClusterState) (re : Resource) (fixedOne : Nat) (rid : Int) :
    List (Nat × Nat) → ResAcc → GoStep ResAcc
  | [], acc => .ok acc
  | (i, v) :: rest, acc =>
      let pu := acc.model.newIntVar 1 (cs.nodes.length : Int)
        "Adjusted intervals for upper bounds."
      let pt := pu.1.newInterval v pu.2 fixedOne (resIntervalName rid i)
      match lookupShardL cs.shards rid with
      | none => .panicked { acc with model := pt.1 } panicNilDeref
      | some r =>
          let pd := pt.1.newConstant (r.demandOf re) (resDemandName rid)
          resSlotsGo cs re fixedOne rid rest
            ⟨pd.1, acc.tasks ++ [pt.2], acc.dems ++ [pd.2]⟩

/-- Outer loop `for rId, nIds := range a.assignment`. -/
def resEntriesGo (cs : ClusterState) (re : Resource) (fixedOne : Nat) :
    List (Int × List Nat) → ResAcc → GoStep ResAcc
  | [], acc => .ok acc
  | (rid, vs) :: rest, acc =>
      match resSlotsGo cs re fixedOne rid vs.enum acc with
      | .panicked a s => .panicked a s
      | .ok acc2 => resEntriesGo cs re fixedOne rest acc2

/-- The body of the per-resource loop of `adhereToResourcesAndBalance`. -/
def resForResource (cs : ClusterState) (assignment : List (Int × List Nat))
    (fixedOne : Nat) (re : Resource) (m : Model) : BOut Model :=
  let rawDemand := totalDemandCode cs re
  match rawCapacityCode cs re with
  | .panicked s => .panicked m s
  | .ok rawCapacity =>
      if rawCapacity * (cs.nodes.length : Int) < rawDemand then
        .fail m .insufficientCapacity
      else
        let pc := m.newIntVar 0 rawCapacity (capVarName re)
        match resEntriesGo cs re fixedOne assignment ⟨pc.1, [], []⟩ with
        | .panicked a s => .panicked a.model s
        | .ok acc =>
            .ok (((acc.model.addConstr
              (.cumul pc.2 acc.tasks acc.dems)).addObjective
                (.minimizeVars [pc.2])))

/-- `adhereToResourcesAndBalance`: the shared offset-1 constant, then the
disk and QPS iterations in order. -/
def phaseResources (st : AllocSt) : BOut AllocSt :=
  let p0 := st.model.newConstant 1 "Fixed offset of size 1."
  match resForResource st.cs st.assignment p0.2 .disk p0.1 with
  | .panicked m s => .panicked { st with model := m } s
  | .fail m e => .fail { st with model := m } e
  | .ok m1 =>
      match resForResource st.cs st.assignment p0.2 .qps m1 with
      | .panicked m s => .panicked { st with model := m } s
      | .fail m e => .fail { st with model := m } e
      | .ok m2 => .ok { st with model := m2 }

/-! ### Phase 3 — tag affinity (`adhereToNodeTags`) -/

/-- The forbidden-assignment table of a shard: one singleton tuple per
node whose tag set does not contain the shard's tags, in node-map
iteration order. -/
def forbTuples (nodes : List NodeV) (r : ShardV) : List (List Int) :=
  (nodes.filter fun n => !(tagsSubset r.tagList n.tags)).map fun n => [n.id]

/-- The `for i := 0; i < r.rf; i++` loop posting one forbidden-assignment
constraint per replica slot (an absent/short `a.assignment[rId]` slice
indexes out of range). -/
def tagSlotsGo (tuples : List (List Int)) (vs : List Nat) :
    List Nat → Model → GoStep Model
  | [], m => .ok m
  | i :: rest, m =>
      match vs[i]? with
      | none => .panicked m panicIndexRange
      | some v => tagSlotsGo tuples vs rest (m.addConstr (.forbidden [v] tuples))

/-- The per-shard body, collecting shards all of whose nodes are
forbidden. -/
def tagsStep (cs : ClusterState) (assignment : List (Int × List Nat))
    (acc : Model × List Int) (r : ShardV) : GoStep (Model × List Int) :=
  let tuples := forbTuples cs.nodes r
  let wayward :=
    if tuples.length = cs.nodes.length then acc.2 ++ [r.id] else acc.2
  match tagSlotsGo tuples ((lookupKey assignment r.id).getD [])
      (List.range r.rf.toNat) acc.1 with
  | .panicked m s => .panicked (m, acc.2) s
  | .ok m => .ok (m, wayward)

def tagsGo (cs : ClusterState) (assignment : List (Int × List Nat)) :
    List ShardV → Model × List Int → GoStep (Model × List Int)
  | [], acc => .ok acc
  | r :: rest, acc =>
      match tagsStep cs assignment acc r with
      | .panicked a s => .panicked a s
      | .ok acc2 => tagsGo cs assignment rest acc2

/-- `adhereToNodeTags`, including the deferred wayward-tags error. -/
def phaseTags (st : AllocSt) : BOut AllocSt :=
  match tagsGo st.cs st.assignment st.cs.shards (st.model, []) with
  | .panicked a s => .panicked { st with model := a.1 } s
  | .ok (m, wayward) =>
      if wayward = [] then .ok { st with model := m }
      else .fail { st with model := m } (.waywardTags wayward)

/-! ### Phase 4 — the second all-different pass

`allocate` lines 553–555 post an all-different constraint again, this
time ranging over the assignment map. -/

def phaseAllDiff2 (st : AllocSt) : AllocSt :=
  { st with
    model := st.assignment.foldl (fun m p => m.addConstr (.allDiff p.2)) st.model }

/-! ### Phase 5 — churn (`adhereToChurnConstraint`) -/

def churnLitName (rid : Int) (i : Nat) (p : Int) : String :=
  "Literal tracking variance between assignment of shard:" ++ toString rid
    ++ ", shard:" ++ toString (Int.ofNat i) ++ " on node:" ++ toString p

def churnConstName (rid : Int) (i : Nat) (p : Int) : String :=
  "IntVar corresponding to assignment of shard:" ++ toString rid
    ++ ", shard:" ++ toString (Int.ofNat i) ++ " on node:" ++ toString p

/-- Bookkeeping for one churn indicator: the literal, the slot variable
it guards, the constant variable holding the prior node and the prior
node id itself.  The Go `toMinimizeTheSumLiterals` list is the
`.Not()`-projection of this list. -/
structure ChurnInfo where
  lit : Nat
  iv : Nat
  cvar : Nat
  prev : Int
deriving DecidableEq, Repr

/-- Inner loop `for i, iv := range a.assignment[r.id]`: reads
`prevNodeIds[i]` (out of range if the prior list is shorter than the
slot list) and introduces an indicator when the prior node is live. -/
def churnSlotsGo (nodes : List NodeV) (rid : Int) (prevIds : List Int) :
    List (Nat × Nat) → Model × List ChurnInfo → GoStep (Model × List ChurnInfo)
  | [], acc => .ok acc
  | (i, iv) :: rest, (m, infos) =>
      match prevIds[i]? with
      | none => .panicked (m, infos) panicIndexRange
      | some p =>
          match lookupNode nodes p with
          | none => churnSlotsGo nodes rid prevIds rest (m, infos)
          | some _ =>
              let pl := m.newLiteral (churnLitName rid i p)
              let pc := pl.1.newConstant p (churnConstName rid i p)
              let m3 := pc.1.addConstr
                (.linearEnf [iv, pc.2] [1, -1] 0 0 0 [⟨pl.2, false⟩])
              churnSlotsGo nodes rid prevIds rest (m3, infos ++ [⟨pl.2, iv, pc.2, p⟩])

def churnShardsGo (nodes : List NodeV) (prevMap : List (Int × List Int))
    (assignment : List (Int × List Nat)) :
    List ShardV → Model × List ChurnInfo → GoStep (Model × List ChurnInfo)
  | [], acc => .ok acc
  | r :: rest, acc =>
      match lookupKey prevMap r.id with
      | none => churnShardsGo nodes prevMap assignment rest acc
      | some prevIds =>
          match churnSlotsGo nodes r.id prevIds
              ((lookupKey assignment r.id).getD []).enum acc with
          | .panicked a s => .panicked a s
          | .ok acc2 => churnShardsGo nodes prevMap assignment rest acc2

/-- `adhereToChurnConstraint`: nil-map guard, indicator construction,
optional minimization objective and optional hard at-most-K cap. -/
def phaseChurn (st : AllocSt) : BOut AllocSt :=
  match st.cs.currentAssignment with
  | none => .panicked st panicMissingPrior
  | some prevMap =>
      match churnShardsGo st.cs.nodes prevMap st.assignment st.cs.shards
          (st.model, []) with
      | .panicked a s => .panicked { st with model := a.1 } s
      | .ok (m, infos) =>
          let litRefs := infos.map fun info => LitRef.mk info.lit true
          let m1 :=
            if st.cfg.withMinimalChurn then m.addObjective (.minimizeLits litRefs)
            else m
          let m2 :=
            if st.cfg.maxChurn ≠ noMaxChurn then
              m1.addConstr (.atMostK st.cfg.maxChurn litRefs)
            else m1
          .ok { st with model := m2 }

/-! ### The orchestrator: `Solve` / `allocate` -/

/-- `newAllocator`: fresh model, empty assignment, cluster state taken by
reference. -/
def initSt (cs : ClusterState) (cfg : Configur) : AllocSt :=
  { cs := cs, cfg := cfg, model := Model.empty "Lé-allocator", assignment := [] }

/-- Everything `allocate` does before consulting the solver facade, in
program order. -/
def allocateBuild (st : AllocSt) : BOut AllocSt :=
  (((phase1 st).andThen fun st1 =>
      if st1.cfg.withResources then phaseResources st1 else .ok st1).andThen
    fun st2 =>
      if st2.cfg.withTagAffinity then phaseTags st2 else .ok st2).andThen
    fun st3 =>
      let st4 := phaseAllDiff2 st3
      if st4.cfg.withMinimalChurn || st4.cfg.maxChurn ≠ noMaxChurn then
        phaseChurn st4
      else .ok st4

/-- The solver facade's possible responses to `Validate` + `Solve`:
validation failure, no feasible/optimal result, or a full assignment. -/
inductive SolverResp where
  | invalid
  | notSolved
  | solved (σ : Nat → Int) (β : Nat → Bool)

/-- A solver facade is sound when every assignment it reports satisfies
the model it was handed; this is the CP-SAT contract for
`Feasible`/`Optimal` results. -/
def OracleSound (oracle : Model → SolverResp) : Prop :=
  ∀ m σ β, oracle m = .solved σ β → m.Satisfies σ β

/-- What `Solve` returns to the caller. -/
inductive SolveOutcome where
  | ok (alloc : List (Int × List Int))
  | err (e : AllocErr)
  | panicked (msg : String)
deriving DecidableEq, Repr

/-- `res[rId] = append(res[rId], allocated)`, once per decoded value. -/
def mapAppendVals (res : List (Int × List Int)) (k : Int) (vals : List Int) :
    List (Int × List Int) :=
  vals.foldl (fun r v => mapSet r k (((lookupKey r k).getD []) ++ [v])) res

/-- The decode loop of `allocate` (lines 580–588): for each shard, read
the solver's value of each slot variable. -/
def decode (st : AllocSt) (σ : Nat → Int) : List (Int × List Int) :=
  st.cs.shards.foldl
    (fun res r =>
      mapAppendVals res r.id (((lookupKey st.assignment r.id).getD []).map σ))
    []

/-- `Solve(cs, opts...)`: build the model, validate, solve, decode. -/
def solveWith (oracle : Model → SolverResp) (cs : ClusterState)
    (cfg : Configur) : SolveOutcome :=
  match allocateBuild (initSt cs cfg) with
  | .panicked _ s => .panicked s
  | .fail _ e => .err e
  | .ok st =>
      match oracle st.model with
      | .invalid => .err .invalidModel
      | .notSolved => .err .notSolved
      | .solved σ _ => .ok (decode st σ)

/-! ## The cluster-state construction and update API
(cluster.go / replica.go / node.go)

Option closures are deeply embedded as data so that statements may
quantify over "every option list that contains no `WithTagsOfReplica`".
`WithDemandOfReplica` validates its argument when the option value is
*constructed* (outside the closure), so its constructor is a separate
fallible function. -/

def panicNilMapWrite : String := "assignment to entry in nil map"

/-- Go map write on a `map[Resource]int64` association list. -/
def resSet : List (Resource × Int) → Resource → Int → List (Resource × Int)
  | [], re, v => [(re, v)]
  | p :: rest, re, v => if p.1 = re then (re, v) :: rest else p :: resSet rest re v

/-- `tagsM[tag] = struct{}{}`: membership-only insertion. -/
def tagInsert (l : List String) (t : String) : List String :=
  if l.contains t then l else l ++ [t]

/-- The recognized `ReplicaOption` closures. -/
inductive ReplicaOpt where
  | withReplicationFactor (rf : Int)
  | withTags (tags : List String)
  | addTags (tags : List String)
  | removeAllTags
  | withDemand (re : Resource) (amt : Int)
deriving DecidableEq, Repr

/-- `WithDemandOfReplica`: panics while *building* the option if the
amount is negative. -/
def mkWithDemandOfReplica (re : Resource) (amt : Int) : GoRes ReplicaOpt :=
  if amt < 0 then .panicked "resourceAmount cannot be negative"
  else .ok (.withDemand re amt)

/-- `newReplica`: the tag map is left nil. -/
def newReplica (id rf : Int) : ShardV :=
  { id := id, rf := rf, tags := none, demands := [] }

/-- Applying one replica option.  `AddTagsToReplica` writes each tag into
the existing tag map: with a nil map and at least one tag this is a Go
runtime panic; with no tags the loop body never runs. -/
def applyReplicaOpt (r : ShardV) : ReplicaOpt → GoRes ShardV
  | .withReplicationFactor rf => .ok { r with rf := rf }
  | .withTags ts => .ok { r with tags := some (ts.foldl tagInsert []) }
  | .addTags ts =>
      match r.tags with
      | some m => .ok { r with tags := some (ts.foldl tagInsert m) }
      | none => if ts.isEmpty then .ok r else .panicked panicNilMapWrite
  | .removeAllTags => .ok { r with tags := none }
  | .withDemand re amt => .ok { r with demands := resSet r.demands re amt }

def applyReplicaOpts : ShardV → List ReplicaOpt → GoRes ShardV
  | r, [] => .ok r
  | r, o :: rest =>
      match applyReplicaOpt r o with
      | .panicked s => .panicked s
      | .ok r2 => applyReplicaOpts r2 rest

/-- `cs.shards[r.id] = r` (the key always equals the replica's id). -/
def setShard : List ShardV → ShardV → List ShardV
  | [], r => [r]
  | s :: rest, r => if s.id = r.id then r :: rest else s :: setShard rest r

/-- `AddReplica` (cluster.go lines 26–37). -/
def AddReplica (cs : ClusterState) (id rf : Int) (opts : List ReplicaOpt) :
    GoRes ClusterState :=
  if id < 0 then .panicked "range id cannot be negative"
  else if rf < 0 then .panicked "range rf cannot be negative"
  else
    match applyReplicaOpts (newReplica id rf) opts with
    | .panicked s => .panicked s
    | .ok r => .ok { cs with shards := setShard cs.shards r }

/-- `UpdateReplica` (cluster.go lines 47–57): hit/miss flag, options
applied only on a hit. -/
def UpdateReplica (cs : ClusterState) (id : Int) (opts : List ReplicaOpt) :
    GoRes (ClusterState × Bool) :=
  match lookupShardL cs.shards id with
  | none => .ok (cs, false)
  | some r =>
      match applyReplicaOpts r opts with
      | .panicked s => .panicked s
      | .ok r2 => .ok ({ cs with shards := setShard cs.shards r2 }, true)

/-- The recognized `NodeOption` closures (node.go); none of them
validates its argument. -/
inductive NodeOpt where
  | withTagsOfNode (ts : List String)
  | addTagsToNode (ts : List String)
  | removeAllTagsOfNode
  | withResourceOfNode (re : Resource) (amt : Int)
deriving DecidableEq, Repr

def applyNodeOpt (n : NodeV) : NodeOpt → NodeV
  | .withTagsOfNode ts => { n with tags := ts }
  | .addTagsToNode ts => { n with tags := n.tags ++ ts }
  | .removeAllTagsOfNode => { n with tags := [] }
  | .withResourceOfNode re amt => { n with resources := resSet n.resources re amt }

def newNode (id : Int) : NodeV := { id := id, tags := [], resources := [] }

def setNode : List NodeV → NodeV → List NodeV
  | [], n => [n]
  | x :: rest, n => if x.id = n.id then n :: rest else x :: setNode rest n

/-- `AddNode` (cluster.go lines 60–69). -/
def AddNode (cs : ClusterState) (id : Int) (opts : List NodeOpt) :
    GoRes ClusterState :=
  if id < 0 then .panicked "node id cannot be negative"
  else .ok { cs with nodes := setNode cs.nodes (opts.foldl applyNodeOpt (newNode id)) }

/-! ## Toolkit: association lists and model growth -/

theorem lookupKey_mapSet_self {β : Type} (l : List (Int × β)) (k : Int) (v : β) :
    lookupKey (mapSet l k v) k = some v := by
  induction l with
  | nil => simp [mapSet, lookupKey]
  | cons p rest ih =>
      by_cases h : p.1 = k
      · simp [mapSet, h, lookupKey]
      · simp [mapSet, h, lookupKey, ih]

theorem lookupKey_mapSet_other {β : Type} (l : List (Int × β)) (k k2 : Int)
    (v : β) (hne : k2 ≠ k) :
    lookupKey (mapSet l k v) k2 = lookupKey l k2 := by
  have hke : ¬ k = k2 := fun h => hne h.symm
  induction l with
  | nil => simp [mapSet, lookupKey, hke]
  | cons p rest ih =>
      by_cases h : p.1 = k
      · subst h
        have h2 : ¬ p.1 = k2 := fun h => hne h.symm
        simp [mapSet, lookupKey, h2]
      · simp only [mapSet, h, if_false, lookupKey]
        by_cases h2 : p.1 = k2 <;> simp [h2, ih]

/-- `m2` is `m1` with further variables, literals, intervals and
constraints appended (what every later building step does). -/
def ModelLe (m1 m2 : Model) : Prop :=
  (∃ t, m2.vars = m1.vars ++ t) ∧ (∃ t, m2.lits = m1.lits ++ t) ∧
  (∃ t, m2.intervals = m1.intervals ++ t) ∧
  (∃ t, m2.constraints = m1.constraints ++ t)

theorem ModelLe.refl (m : Model) : ModelLe m m :=
  ⟨⟨[], by simp⟩, ⟨[], by simp⟩, ⟨[], by simp⟩, ⟨[], by simp⟩⟩

theorem ModelLe.trans {m1 m2 m3 : Model} (h1 : ModelLe m1 m2)
    (h2 : ModelLe m2 m3) : ModelLe m1 m3 := by
  obtain ⟨⟨a1, ha1⟩, ⟨b1, hb1⟩, ⟨c1, hc1⟩, ⟨d1, hd1⟩⟩ := h1
  obtain ⟨⟨a2, ha2⟩, ⟨b2, hb2⟩, ⟨c2, hc2⟩, ⟨d2, hd2⟩⟩ := h2
  exact ⟨⟨a1 ++ a2, by simp [ha2, ha1]⟩, ⟨b1 ++ b2, by simp [hb2, hb1]⟩,
    ⟨c1 ++ c2, by simp [hc2, hc1]⟩, ⟨d1 ++ d2, by simp [hd2, hd1]⟩⟩

theorem modelLe_newIntVar (m : Model) (lo hi : Int) (name : String) :
    ModelLe m (m.newIntVar lo hi name).1 :=
  ⟨⟨[⟨lo, hi, name⟩], rfl⟩, ⟨[], by simp [Model.newIntVar]⟩,
    ⟨[], by simp [Model.newIntVar]⟩, ⟨[], by simp [Model.newIntVar]⟩⟩

theorem modelLe_newConstant (m : Model) (v : Int) (name : String) :
    ModelLe m (m.newConstant v name).1 :=
  modelLe_newIntVar m v v name

theorem modelLe_newLiteral (m : Model) (name : String) :
    ModelLe m (m.newLiteral name).1 :=
  ⟨⟨[], by simp [Model.newLiteral]⟩, ⟨[name], rfl⟩,
    ⟨[], by simp [Model.newLiteral]⟩, ⟨[], by simp [Model.newLiteral]⟩⟩

theorem modelLe_newInterval (m : Model) (start stop size : Nat) (name : String) :
    ModelLe m (m.newInterval start stop size name).1 :=
  ⟨⟨[], by simp [Model.newInterval]⟩, ⟨[], by simp [Model.newInterval]⟩,
    ⟨[⟨start, stop, size, name⟩], rfl⟩, ⟨[], by simp [Model.newInterval]⟩⟩

theorem modelLe_addConstr (m : Model) (c : Constr) :
    ModelLe m (m.addConstr c) :=
  ⟨⟨[], by simp [Model.addConstr]⟩, ⟨[], by simp [Model.addConstr]⟩,
    ⟨[], by simp [Model.addConstr]⟩, ⟨[c], rfl⟩⟩

theorem modelLe_addObjective (m : Model) (o : ObjTerm) :
    ModelLe m (m.addObjective o) :=
  ⟨⟨[], by simp [Model.addObjective]⟩, ⟨[], by simp [Model.addObjective]⟩,
    ⟨[], by simp [Model.addObjective]⟩, ⟨[], by simp [Model.addObjective]⟩⟩

/-- Variable declarations already present stay at their index as the
model grows. -/
theorem ModelLe.varStable {m1 m2 : Model} (h : ModelLe m1 m2) {i : Nat}
    {d : IntVarD} (hd : m1.vars[i]? = some d) : m2.vars[i]? = some d := by
  obtain ⟨⟨t, ht⟩, _, _, _⟩ := h
  have hi : i < m1.vars.length := by
    by_contra hge
    simp [List.getElem?_eq_none (Nat.le_of_not_lt hge)] at hd
  rw [ht, List.getElem?_append_left hi]
  exact hd

/-- Constraints already posted stay as the model grows. -/
theorem ModelLe.constrStable {m1 m2 : Model} (h : ModelLe m1 m2) {c : Constr}
    (hc : c ∈ m1.constraints) : c ∈ m2.constraints := by
  obtain ⟨_, _, _, ⟨t, ht⟩⟩ := h
  rw [ht]
  exact List.mem_append_left t hc

/-- The variable handed out by `newIntVar` points at its declaration. -/
theorem newIntVar_decl (m : Model) (lo hi : Int) (name : String) :
    (m.newIntVar lo hi name).1.vars[(m.newIntVar lo hi name).2]? =
      some ⟨lo, hi, name⟩ := by
  simp [Model.newIntVar]

theorem newConstant_decl (m : Model) (v : Int) (name : String) :
    (m.newConstant v name).1.vars[(m.newConstant v name).2]? =
      some ⟨v, v, name⟩ :=
  newIntVar_decl m v v name

/-! ## Toolkit: frame facts about the phases

The cluster state and the configuration are carried through every phase
unchanged (each phase rebuilds the allocator state only through
`{ st with model := _, assignment := _ }`); on success the model only
grows, and only phase 1 writes the assignment map. -/

theorem phase1_frame (st : AllocSt) :
    ((phase1 st).state).cs = st.cs ∧ ((phase1 st).state).cfg = st.cfg := by
  unfold phase1
  cases phase1Go st.cs st.cs.shards ⟨st.model, st.assignment, []⟩ with
  | panicked a s => simp [BOut.state]
  | ok acc =>
      by_cases h : acc.badIds = [] <;> simp [h, BOut.state]

theorem phaseResources_frame (st : AllocSt) :
    ((phaseResources st).state).cs = st.cs ∧
      ((phaseResources st).state).cfg = st.cfg ∧
      ((phaseResources st).state).assignment = st.assignment := by
  unfold phaseResources
  cases hd : resForResource st.cs st.assignment
      (st.model.newConstant 1 "Fixed offset of size 1.").2 .disk
      (st.model.newConstant 1 "Fixed offset of size 1.").1 with
  | panicked m s => simp [hd, BOut.state]
  | fail m e => simp [hd, BOut.state]
  | ok m1 =>
      cases hq : resForResource st.cs st.assignment
          (st.model.newConstant 1 "Fixed offset of size 1.").2 .qps m1 with
      | panicked m s => simp [hd, hq, BOut.state]
      | fail m e => simp [hd, hq, BOut.state]
      | ok m2 => simp [hd, hq, BOut.state]

theorem phaseTags_frame (st : AllocSt) :
    ((phaseTags st).state).cs = st.cs ∧
      ((phaseTags st).state).cfg = st.cfg ∧
      ((phaseTags st).state).assignment = st.assignment := by
  unfold phaseTags
  cases ht : tagsGo st.cs st.assignment st.cs.shards (st.model, []) with
  | panicked a s => simp [ht, BOut.state]
  | ok a =>
      by_cases h : a.2 = [] <;> simp [ht, h, BOut.state]

theorem phaseAllDiff2_frame (st : AllocSt) :
    (phaseAllDiff2 st).cs = st.cs ∧ (phaseAllDiff2 st).cfg = st.cfg ∧
      (phaseAllDiff2 st).assignment = st.assignment := by
  simp [phaseAllDiff2]

theorem phaseChurn_frame (st : AllocSt) :
    ((phaseChurn st).state).cs = st.cs ∧
      ((phaseChurn st).state).cfg = st.cfg ∧
      ((phaseChurn st).state).assignment = st.assignment := by
  unfold phaseChurn
  cases hc : st.cs.currentAssignment with
  | none => simp [hc, BOut.state]
  | some prevMap =>
      cases hg : churnShardsGo st.cs.nodes prevMap st.assignment st.cs.shards
          (st.model, []) with
      | panicked a s => simp [hc, hg, BOut.state]
      | ok a => simp [hc, hg, BOut.state]

theorem andThen_frame (x : BOut AllocSt) (f : AllocSt → BOut AllocSt)
    (hf : ∀ st, ((f st).state).cs = st.cs ∧ ((f st).state).cfg = st.cfg) :
    ((x.andThen f).state).cs = ((x.state)).cs ∧
      ((x.andThen f).state).cfg = ((x.state)).cfg := by
  cases x with
  | ok a => exact hf a
  | fail a e => simp [BOut.andThen, BOut.state]
  | panicked a s => simp [BOut.andThen, BOut.state]

/-- The orchestrator never touches the cluster state or the
configuration, on any path. -/
theorem allocateBuild_frame (st : AllocSt) :
    ((allocateBuild st).state).cs = st.cs ∧
      ((allocateBuild st).state).cfg = st.cfg := by
  have h2 : ∀ s : AllocSt,
      (((if s.cfg.withResources then phaseResources s else .ok s) :
        BOut AllocSt).state).cs = s.cs ∧
      (((if s.cfg.withResources then phaseResources s else .ok s) :
        BOut AllocSt).state).cfg = s.cfg := by
    intro s
    by_cases h : s.cfg.withResources
    · simpa [h] using
        ⟨(phaseResources_frame s).1, (phaseResources_frame s).2.1⟩
    · simp [h, BOut.state]
  have h3 : ∀ s : AllocSt,
      (((if s.cfg.withTagAffinity then phaseTags s else .ok s) :
        BOut AllocSt).state).cs = s.cs ∧
      (((if s.cfg.withTagAffinity then phaseTags s else .ok s) :
        BOut AllocSt).state).cfg = s.cfg := by
    intro s
    by_cases h : s.cfg.withTagAffinity
    · simpa [h] using ⟨(phaseTags_frame s).1, (phaseTags_frame s).2.1⟩
    · simp [h, BOut.state]
  have h4 : ∀ s : AllocSt,
      (((if (phaseAllDiff2 s).cfg.withMinimalChurn ||
            (phaseAllDiff2 s).cfg.maxChurn ≠ noMaxChurn then
          phaseChurn (phaseAllDiff2 s)
        else .ok (phaseAllDiff2 s)) : BOut AllocSt).state).cs = s.cs ∧
      (((if (phaseAllDiff2 s).cfg.withMinimalChurn ||
            (phaseAllDiff2 s).cfg.maxChurn ≠ noMaxChurn then
          phaseChurn (phaseAllDiff2 s)
        else .ok (phaseAllDiff2 s)) : BOut AllocSt).state).cfg = s.cfg := by
    intro s
    obtain ⟨e1, e2, -⟩ := phaseAllDiff2_frame s
    by_cases h : ((phaseAllDiff2 s).cfg.withMinimalChurn ||
        (phaseAllDiff2 s).cfg.maxChurn ≠ noMaxChurn : Bool)
    · obtain ⟨c1, c2, -⟩ := phaseChurn_frame (phaseAllDiff2 s)
      simp only [h, if_true]
      exact ⟨c1.trans e1, c2.trans e2⟩
    · simp only [h, if_false, BOut.state]
      exact ⟨e1, e2⟩
  unfold allocateBuild
  constructor
  · rw [(andThen_frame _ _ h4).1, (andThen_frame _ _ h3).1,
      (andThen_frame _ _ h2).1, (phase1_frame st).1]
  · rw [(andThen_frame _ _ h4).2, (andThen_frame _ _ h3).2,
      (andThen_frame _ _ h2).2, (phase1_frame st).2]

/-! ## Claim C8 — Solve never mutates the ClusterState -/

/-- Claim C8: `Solve` never mutates the `ClusterState`: whatever way the
run ends (allocation, error or panic), the nodes map, the shards map and
the current assignment of the state the allocator was built over are the
ones passed in.  The allocator state is threaded through every phase, so
this is a theorem about all execution paths of the model builder. -/
theorem c8_solve_never_mutates (cs : ClusterState) (cfg : Configur) :
    ((allocateBuild (initSt cs cfg)).state).cs.nodes = cs.nodes ∧
      ((allocateBuild (initSt cs cfg)).state).cs.shards = cs.shards ∧
      ((allocateBuild (initSt cs cfg)).state).cs.currentAssignment =
        cs.currentAssignment := by
  have h := (allocateBuild_frame (initSt cs cfg)).1
  rw [show (initSt cs cfg).cs = cs from rfl] at h
  exact ⟨by rw [h], by rw [h], by rw [h]⟩

/-! ## Claim C2 — the rawCap computation -/

theorem foldl_add_eq_sum {α : Type} (f : α → Int) (l : List α) (a : Int) :
    l.foldl (fun acc r => acc + f r) a = a + (l.map f).sum := by
  induction l generalizing a with
  | nil => simp
  | cons x rest ih => simp [ih, add_assoc]

/-- The loop-computed raw demand is the specification sum
`Σₛ s.demands[re] · s.rf`. -/
theorem totalDemandCode_eq_spec (cs : ClusterState) (re : Resource) :
    totalDemandCode cs re = totalDemandSpec cs re := by
  unfold totalDemandCode totalDemandSpec
  rw [foldl_add_eq_sum (fun r => r.demandOf re * r.rf) cs.shards 0, zero_add]

theorem rawCapacityCode_run (cs : ClusterState) (re : Resource) (n0 : NodeV)
    (h0 : lookupNode cs.nodes 0 = some n0) :
    rawCapacityCode cs re =
      .ok ((lookupRes n0.resources re).getD (totalDemandSpec cs re)) := by
  unfold rawCapacityCode
  rw [h0]
  cases hr : lookupRes n0.resources re with
  | some c => simp [hr]
  | none => simp [hr, totalDemandCode_eq_spec]

/-- Claim C2 (amended): when capacity/balancing is enabled the builder
computes, for each resource, `rawCap` as node 0's explicit capacity if
one is set, and otherwise as `totalDemand` itself — the total demand
`Σₛ s.demands[re] · s.rf` — with **no** `+ 1` sentinel. -/
theorem c2_rawCapacity (cs : ClusterState) (re : Resource) (n0 : NodeV)
    (h0 : lookupNode cs.nodes 0 = some n0) :
    rawCapacityCode cs re =
      .ok ((lookupRes n0.resources re).getD (totalDemandSpec cs re)) :=
  rawCapacityCode_run cs re n0 h0

def csC2 : ClusterState :=
  { nodes := [{ id := 0, tags := [], resources := [] }],
    shards := [{ id := 0, rf := 1, tags := none, demands := [(.disk, 2)] }],
    currentAssignment := none }

/-- Claim C2 counterexample: node 0 has no explicit disk capacity and the
total disk demand is 2, yet the builder computes `rawCap = 2`, not the
claimed `totalDemand + 1 = 3`. -/
theorem c2_counterexample :
    lookupRes ((lookupNode csC2.nodes 0).getD (newNode 0)).resources .disk
        = none ∧
      totalDemandSpec csC2 .disk = 2 ∧
      rawCapacityCode csC2 .disk = .ok 2 ∧
      rawCapacityCode csC2 .disk ≠ .ok (totalDemandSpec csC2 .disk + 1) := by
  decide

/-- Witness for `c2_rawCapacity` at a concrete state. -/
theorem c2_rawCapacity_witness :
    rawCapacityCode csC2 .disk =
      .ok ((lookupRes
        (({ id := 0, tags := [], resources := [] } : NodeV)).resources .disk).getD
          (totalDemandSpec csC2 .disk)) :=
  c2_rawCapacity csC2 .disk { id := 0, tags := [], resources := [] } (by decide)

/-! ## Claim C9 — validation on creation/update -/

def emptyCS : ClusterState := { nodes := [], shards := [], currentAssignment := none }

/-- Claim C9 (amended): creation/update rejects invalid input by
*panicking* with a descriptive message — there is no `InvalidArgument`
error value (the functions do not return errors): negative ids passed to
`AddReplica`/`AddNode` and negative rf passed to `AddReplica` panic, and
`WithDemandOfReplica` panics while the option is being constructed;
`WithResourceOfNode`, by contrast, performs no validation at all. -/
theorem c9_validation_panics :
    (∀ (cs : ClusterState) (id rf : Int) (opts : List ReplicaOpt), id < 0 →
        AddReplica cs id rf opts = .panicked "range id cannot be negative") ∧
      (∀ (cs : ClusterState) (id rf : Int) (opts : List ReplicaOpt),
        0 ≤ id → rf < 0 →
        AddReplica cs id rf opts = .panicked "range rf cannot be negative") ∧
      (∀ (cs : ClusterState) (id : Int) (opts : List NodeOpt), id < 0 →
        AddNode cs id opts = .panicked "node id cannot be negative") ∧
      (∀ (re : Resource) (amt : Int), amt < 0 →
        mkWithDemandOfReplica re amt =
          .panicked "resourceAmount cannot be negative") ∧
      (∀ (n : NodeV) (re : Resource) (amt : Int),
        applyNodeOpt n (.withResourceOfNode re amt) =
          { n with resources := resSet n.resources re amt }) := by
  refine ⟨?_, ?_, ?_, ?_, ?_⟩
  · intro cs id rf opts h
    simp [AddReplica, h]
  · intro cs id rf opts h0 h
    simp [AddReplica, not_lt.mpr h0, h]
  · intro cs id opts h
    simp [AddNode, h]
  · intro re amt h
    simp [mkWithDemandOfReplica, h]
  · intro n re amt
    rfl

/-- Witness for `c9_validation_panics` at concrete inputs. -/
theorem c9_validation_panics_witness :
    AddReplica emptyCS (-1) 3 [] = .panicked "range id cannot be negative" ∧
      AddReplica emptyCS 5 (-2) [] = .panicked "range rf cannot be negative" ∧
      AddNode emptyCS (-7) [] = .panicked "node id cannot be negative" ∧
      mkWithDemandOfReplica .disk (-4) =
        .panicked "resourceAmount cannot be negative" :=
  ⟨c9_validation_panics.1 emptyCS (-1) 3 [] (by decide),
    c9_validation_panics.2.1 emptyCS 5 (-2) [] (by decide) (by decide),
    c9_validation_panics.2.2.1 emptyCS (-7) [] (by decide),
    c9_validation_panics.2.2.2.1 .disk (-4) (by decide)⟩

/-- Claim C9 counterexample: a negative id makes `AddReplica` panic — an
exception, not an `InvalidArgument` error value (its Go signature has no
error result at all) — and a negative node resource amount is accepted
without any rejection. -/
theorem c9_counterexample :
    AddReplica emptyCS (-1) 3 [] = .panicked "range id cannot be negative" ∧
      AddNode emptyCS 0 [.withResourceOfNode .disk (-5)] =
        .ok { emptyCS with
          nodes := [{ id := 0, tags := [], resources := [(.disk, -5)] }] } := by
  decide

/-! ## Claim C10 — AddTagsToReplica on an uninitialized tag map -/

/-- Sequencing of option application over an append. -/
theorem applyReplicaOpts_append (r : ShardV) (l1 l2 : List ReplicaOpt) :
    applyReplicaOpts r (l1 ++ l2) =
      match applyReplicaOpts r l1 with
      | .ok r2 => applyReplicaOpts r2 l2
      | .panicked s => .panicked s := by
  induction l1 generalizing r with
  | nil => simp [applyReplicaOpts]
  | cons o rest ih =>
      simp only [List.cons_append, applyReplicaOpts]
      cases applyReplicaOpt r o with
      | panicked s => rfl
      | ok r2 => exact ih r2

/-- Options other than `WithTagsOfReplica` keep a nil tag map nil (or
panic, necessarily with the nil-map-write message). -/
theorem applyReplicaOpts_noWithTags (l : List ReplicaOpt) :
    ∀ r : ShardV, r.tags = none → (∀ us, ReplicaOpt.withTags us ∉ l) →
      applyReplicaOpts r l = .panicked panicNilMapWrite ∨
        ∃ r2, applyReplicaOpts r l = .ok r2 ∧ r2.tags = none := by
  induction l with
  | nil =>
      intro r hr _
      exact Or.inr ⟨r, rfl, hr⟩
  | cons o rest ih =>
      intro r hr hmem
      have hrest : ∀ us, ReplicaOpt.withTags us ∉ rest := by
        intro us hus
        exact hmem us (List.mem_cons_of_mem o hus)
      cases o with
      | withReplicationFactor rf =>
          simpa [applyReplicaOpts, applyReplicaOpt] using
            ih { r with rf := rf } hr hrest
      | withTags ts =>
          exact absurd (List.mem_cons_self _ _) (fun h => hmem ts h)
      | addTags ts =>
          cases ts with
          | nil =>
              simpa [applyReplicaOpts, applyReplicaOpt, hr] using ih r hr hrest
          | cons t more =>
              exact Or.inl (by simp [applyReplicaOpts, applyReplicaOpt, hr])
      | removeAllTags =>
          simpa [applyReplicaOpts, applyReplicaOpt] using
            ih { r with tags := none } rfl hrest
      | withDemand re amt =>
          simpa [applyReplicaOpts, applyReplicaOpt] using
            ih { r with demands := resSet r.demands re amt } hr hrest

/-- Option application never changes the replica's id. -/
theorem applyReplicaOpts_id (l : List ReplicaOpt) :
    ∀ r r2 : ShardV, applyReplicaOpts r l = .ok r2 → r2.id = r.id := by
  induction l with
  | nil =>
      intro r r2 h
      cases h
      rfl
  | cons o rest ih =>
      intro r r2 h
      cases o with
      | withReplicationFactor rf =>
          have h2 : applyReplicaOpts { r with rf := rf } rest = .ok r2 := by
            simpa [applyReplicaOpts, applyReplicaOpt] using h
          simpa using ih _ _ h2
      | withTags ts =>
          have h2 : applyReplicaOpts
              { r with tags := some (ts.foldl tagInsert []) } rest = .ok r2 := by
            simpa [applyReplicaOpts, applyReplicaOpt] using h
          simpa using ih _ _ h2
      | addTags ts =>
          rcases hr : r.tags with - | m
          · cases ts with
            | nil =>
                have h2 : applyReplicaOpts r rest = .ok r2 := by
                  simpa [applyReplicaOpts, applyReplicaOpt, hr] using h
                exact ih _ _ h2
            | cons t more =>
                simp [applyReplicaOpts, applyReplicaOpt, hr] at h
          · have h2 : applyReplicaOpts
                { r with tags := some (ts.foldl tagInsert m) } rest = .ok r2 := by
              simpa [applyReplicaOpts, applyReplicaOpt, hr] using h
            simpa using ih _ _ h2
      | removeAllTags =>
          have h2 : applyReplicaOpts { r with tags := none } rest = .ok r2 := by
            simpa [applyReplicaOpts, applyReplicaOpt] using h
          simpa using ih _ _ h2
      | withDemand re amt =>
          have h2 : applyReplicaOpts
              { r with demands := resSet r.demands re amt } rest = .ok r2 := by
            simpa [applyReplicaOpts, applyReplicaOpt] using h
          simpa using ih _ _ h2

theorem setShard_lookup_self (l : List ShardV) (r : ShardV) :
    lookupShardL (setShard l r) r.id = some r := by
  induction l with
  | nil => simp [setShard, lookupShardL]
  | cons s rest ih =>
      by_cases h : s.id = r.id
      · simp [setShard, h, lookupShardL]
      · simp [setShard, h, lookupShardL, ih]

/-- Claim C10 (amended): a replica created without `WithTagsOfReplica`
keeps a nil tag map, and applying `AddTagsToReplica` **with at least one
tag** — in the same `AddReplica` call or in a later `UpdateReplica` call —
panics with the nil-map-write error;  `AddTagsToReplica` with a nonempty
tag list succeeds exactly on a tag map initialized by
`WithTagsOfReplica`; with an empty tag list it never writes and never
panics. -/
theorem c10_addTags_nil_map :
    (∀ (id rf : Int) (opts : List ReplicaOpt) (t : String) (ts : List String),
      (∀ us, ReplicaOpt.withTags us ∉ opts) →
      applyReplicaOpts (newReplica id rf) (opts ++ [.addTags (t :: ts)]) =
        .panicked panicNilMapWrite) ∧
    (∀ (cs : ClusterState) (id rf : Int) (opts : List ReplicaOpt)
        (t : String) (ts : List String), 0 ≤ id → 0 ≤ rf →
      (∀ us, ReplicaOpt.withTags us ∉ opts) →
      AddReplica cs id rf (opts ++ [.addTags (t :: ts)]) =
        .panicked panicNilMapWrite) ∧
    (∀ (cs cs2 : ClusterState) (id rf : Int) (opts opts2 : List ReplicaOpt)
        (t : String) (ts : List String), 0 ≤ id → 0 ≤ rf →
      (∀ us, ReplicaOpt.withTags us ∉ opts) →
      (∀ us, ReplicaOpt.withTags us ∉ opts2) →
      AddReplica cs id rf opts = .ok cs2 →
      UpdateReplica cs2 id (opts2 ++ [.addTags (t :: ts)]) =
        .panicked panicNilMapWrite) ∧
    (∀ (r : ShardV) (ts us : List String),
      applyReplicaOpt { r with tags := some ts } (.addTags us) =
        .ok { r with tags := some (us.foldl tagInsert ts) }) := by
  have key : ∀ (r : ShardV) (opts : List ReplicaOpt) (t : String)
      (ts : List String), r.tags = none →
      (∀ us, ReplicaOpt.withTags us ∉ opts) →
      applyReplicaOpts r (opts ++ [.addTags (t :: ts)]) =
        .panicked panicNilMapWrite := by
    intro r opts t ts hr hmem
    rw [applyReplicaOpts_append]
    rcases applyReplicaOpts_noWithTags opts r hr hmem with h | ⟨r2, h, hr2⟩
    · rw [h]
    · rw [h]
      simp [applyReplicaOpts, applyReplicaOpt, hr2]
  refine ⟨?_, ?_, ?_, ?_⟩
  · intro id rf opts t ts hmem
    exact key (newReplica id rf) opts t ts rfl hmem
  · intro cs id rf opts t ts h0 h1 hmem
    unfold AddReplica
    rw [if_neg (not_lt.mpr h0), if_neg (not_lt.mpr h1),
      key (newReplica id rf) opts t ts rfl hmem]
  · intro cs cs2 id rf opts opts2 t ts h0 h1 hmem hmem2 hadd
    unfold AddReplica at hadd
    rw [if_neg (not_lt.mpr h0), if_neg (not_lt.mpr h1)] at hadd
    rcases hap : applyReplicaOpts (newReplica id rf) opts with r2 | s
    · rw [hap] at hadd
      cases hadd
      rcases applyReplicaOpts_noWithTags opts (newReplica id rf) rfl hmem
        with hbad | ⟨r3, hok, htags⟩
      · rw [hap] at hbad
        cases hbad
      · rw [hap] at hok
        injection hok with hr23
        subst hr23
        have hid : r2.id = id := applyReplicaOpts_id opts (newReplica id rf) r2 hap
        have hlook : lookupShardL (setShard cs.shards r2) id = some r2 := by
          rw [← hid]
          exact setShard_lookup_self cs.shards r2
        simp only [UpdateReplica, hlook]
        rw [key r2 opts2 t ts htags hmem2]
    · rw [hap] at hadd
      cases hadd
  · intro r ts us
    rfl

/-- Witness for `c10_addTags_nil_map` at concrete inputs. -/
theorem c10_addTags_nil_map_witness :
    applyReplicaOpts (newReplica 0 3) ([] ++ [.addTags ["a"]]) =
        .panicked panicNilMapWrite ∧
      AddReplica emptyCS 0 3 ([] ++ [.addTags ["a"]]) =
        .panicked panicNilMapWrite :=
  ⟨c10_addTags_nil_map.1 0 3 [] "a" [] (by intro us h; cases h),
    c10_addTags_nil_map.2.1 emptyCS 0 3 [] "a" [] (by decide) (by decide)
      (by intro us h; cases h)⟩

/-- Claim C10 counterexample: `AddTagsToReplica` with an *empty* tag list
never writes, so it succeeds on a freshly created replica whose tag map
is still nil — the claim that applying the option always panics, and
that it succeeds only after `WithTagsOfReplica`, is false. -/
theorem c10_counterexample :
    (newReplica 0 3).tags = none ∧
      applyReplicaOpt (newReplica 0 3) (.addTags []) = .ok (newReplica 0 3) := by
  decide

/-! ## Toolkit: characterizing phase 1 -/

/-- Success facts of the per-shard variable construction: one variable
per slot, appended to the model, each declared with the domain
`[a.nodes[0].id, a.nodes[len-1].id]`. -/
theorem buildShardVarsGo_ok (nodes : List NodeV) (rid : Int) :
    ∀ (k : Nat) (m m2 : Model) (vs : List Nat),
      buildShardVarsGo nodes rid k m = .ok (m2, vs) →
      vs.length = k ∧ ModelLe m m2 ∧ m2.constraints = m.constraints ∧
        ∀ v ∈ vs, ∃ a b, lookupNode nodes 0 = some a ∧
          lookupNode nodes ((nodes.length : Int) - 1) = some b ∧
          m2.vars[v]? = some ⟨a.id, b.id, allocVarName rid⟩ := by
  intro k
  induction k with
  | zero =>
      intro m m2 vs h
      simp only [buildShardVarsGo] at h
      cases h
      exact ⟨rfl, ModelLe.refl m, rfl, by simp⟩
  | succ k ih =>
      intro m m2 vs h
      cases h0 : lookupNode nodes 0 with
      | none => simp [buildShardVarsGo, h0] at h
      | some a =>
          cases h1 : lookupNode nodes ((nodes.length : Int) - 1) with
          | none => simp [buildShardVarsGo, h0, h1] at h
          | some b =>
              cases hrec : buildShardVarsGo nodes rid k
                  (m.newIntVar a.id b.id (allocVarName rid)).1 with
              | panicked x s => simp [buildShardVarsGo, h0, h1, hrec] at h
              | ok p =>
                  simp only [buildShardVarsGo, h0, h1, hrec] at h
                  cases h
                  obtain ⟨hlen, hle, hcon, hvars⟩ := ih _ _ _ hrec
                  refine ⟨by simp [hlen], (modelLe_newIntVar m _ _ _).trans hle,
                    by simp [hcon, Model.newIntVar], ?_⟩
                  intro v hv
                  rcases List.mem_cons.mp hv with hv | hv
                  · subst hv
                    exact ⟨a, b, rfl, rfl,
                      hle.varStable (newIntVar_decl m a.id b.id (allocVarName rid))⟩
                  · obtain ⟨a2, b2, ha2, hb2, hdecl⟩ := hvars v hv
                    rw [h0] at ha2
                    rw [h1] at hb2
                    exact ⟨a2, b2, ha2, hb2, hdecl⟩

/-- The per-shard variable construction succeeds whenever the boundary
node lookups succeed. -/
theorem buildShardVarsGo_succeeds (nodes : List NodeV) (rid : Int)
    (a b : NodeV) (h0 : lookupNode nodes 0 = some a)
    (h1 : lookupNode nodes ((nodes.length : Int) - 1) = some b) :
    ∀ (k : Nat) (m : Model), ∃ m2 vs,
      buildShardVarsGo nodes rid k m = .ok (m2, vs) := by
  intro k
  induction k with
  | zero => intro m; exact ⟨m, [], rfl⟩
  | succ k ih =>
      intro m
      obtain ⟨m2, vs, hrec⟩ := ih (m.newIntVar a.id b.id (allocVarName rid)).1
      refine ⟨m2, (m.newIntVar a.id b.id (allocVarName rid)).2 :: vs, ?_⟩
      simp only [buildShardVarsGo, h0, h1, hrec]

/-- Decomposition of a successful phase-1 loop body. -/
theorem phase1Step_ok (cs : ClusterState) (acc : P1Acc) (r : ShardV)
    (acc2 : P1Acc) (h : phase1Step cs acc r = .ok acc2) :
    ∃ m vs, buildShardVarsGo cs.nodes r.id r.rf.toNat acc.model = .ok (m, vs) ∧
      0 ≤ r.rf ∧
      acc2 = ⟨m.addConstr (.allDiff vs), mapSet acc.assignment r.id vs,
        if (cs.nodes.length : Int) < r.rf then acc.badIds ++ [r.id]
        else acc.badIds⟩ := by
  unfold phase1Step at h
  by_cases hneg : r.rf < 0
  · rw [if_pos hneg] at h; cases h
  · rw [if_neg hneg] at h
    cases hb : buildShardVarsGo cs.nodes r.id r.rf.toNat acc.model with
    | panicked x s => rw [hb] at h; cases h
    | ok p =>
        obtain ⟨mm, vv⟩ := p
        rw [hb] at h
        cases h
        exact ⟨mm, vv, rfl, not_lt.mp hneg, rfl⟩

/-- Global facts of a successful phase-1 run: the model only grows, keys
of shards outside the processed list are untouched, and the collected
infeasible-rf ids are exactly the ids of the shards whose rf exceeds the
node count, in traversal order. -/
theorem phase1Go_facts (cs : ClusterState) :
    ∀ (l : List ShardV) (acc acc2 : P1Acc),
      phase1Go cs l acc = .ok acc2 →
      ModelLe acc.model acc2.model ∧
        (∀ k : Int, (∀ r ∈ l, r.id ≠ k) →
          lookupKey acc2.assignment k = lookupKey acc.assignment k) ∧
        acc2.badIds = acc.badIds ++
          ((l.filter fun r => decide ((cs.nodes.length : Int) < r.rf)).map
            fun r => r.id) := by
  intro l
  induction l with
  | nil =>
      intro acc acc2 h
      cases h
      exact ⟨ModelLe.refl _, fun k _ => rfl, by simp⟩
  | cons x rest ih =>
      intro acc acc2 h
      simp only [phase1Go] at h
      cases hs : phase1Step cs acc x with
      | panicked a s => rw [hs] at h; cases h
      | ok acc1 =>
          rw [hs] at h
          obtain ⟨m, vs, hb, hrf, hacc1⟩ := phase1Step_ok cs acc x acc1 hs
          obtain ⟨hlen, hle, hcon, hvars⟩ := buildShardVarsGo_ok cs.nodes x.id _ _ _ _ hb
          obtain ⟨ihle, ihkeys, ihbad⟩ := ih acc1 acc2 h
          subst hacc1
          refine ⟨(hle.trans (modelLe_addConstr m _)).trans ihle, ?_, ?_⟩
          · intro k hk
            rw [ihkeys k fun r hr => hk r (List.mem_cons_of_mem x hr)]
            exact lookupKey_mapSet_other acc.assignment x.id k vs
              fun hkk => hk x (List.mem_cons_self x rest) hkk.symm
          · rw [ihbad]
            by_cases hbig : (cs.nodes.length : Int) < x.rf <;>
              simp [hbig, List.filter]

/-- Per-shard facts of a successful phase-1 run (shard ids pairwise
distinct): the assignment entry of each shard holds `rf` fresh variables
with the boundary-node domain, under an all-different constraint. -/
theorem phase1Go_shard (cs : ClusterState) :
    ∀ (l : List ShardV) (acc acc2 : P1Acc),
      phase1Go cs l acc = .ok acc2 →
      ((l.map fun r => r.id).Nodup) →
      ∀ r ∈ l, ∃ vs, lookupKey acc2.assignment r.id = some vs ∧
        (vs.length : Int) = r.rf ∧
        Constr.allDiff vs ∈ acc2.model.constraints ∧
        ∀ v ∈ vs, ∃ a b, lookupNode cs.nodes 0 = some a ∧
          lookupNode cs.nodes ((cs.nodes.length : Int) - 1) = some b ∧
          acc2.model.vars[v]? = some ⟨a.id, b.id, allocVarName r.id⟩ := by
  intro l
  induction l with
  | nil =>
      intro acc acc2 h hnd r hr
      cases hr
  | cons x rest ih =>
      intro acc acc2 h hnd r hr
      simp only [phase1Go] at h
      cases hs : phase1Step cs acc x with
      | panicked a s => rw [hs] at h; cases h
      | ok acc1 =>
          rw [hs] at h
          rcases List.mem_cons.mp hr with hreq | hr2
          · subst hreq
            obtain ⟨m, vs, hb, hrf, hacc1⟩ := phase1Step_ok cs acc r acc1 hs
            obtain ⟨hlen, -, -, hvars⟩ := buildShardVarsGo_ok cs.nodes r.id _ _ _ _ hb
            obtain ⟨ihle2, ihkeys, -⟩ := phase1Go_facts cs rest acc1 acc2 h
            have hfresh : ∀ r2 ∈ rest, r2.id ≠ r.id := by
              intro r2 hr2 heq
              have hmem : r.id ∈ rest.map fun s => s.id := by
                rw [← heq]
                exact List.mem_map_of_mem (fun s => s.id) hr2
              exact (List.nodup_cons.mp hnd).1 hmem
            refine ⟨vs, ?_, ?_, ?_, ?_⟩
            · rw [ihkeys r.id hfresh, hacc1]
              exact lookupKey_mapSet_self acc.assignment r.id vs
            · rw [hlen]
              exact Int.toNat_of_nonneg hrf
            · refine ihle2.constrStable ?_
              rw [hacc1]
              simp [Model.addConstr]
            · intro v hv
              obtain ⟨a, b, ha, hbn, hdecl⟩ := hvars v hv
              refine ⟨a, b, ha, hbn, ?_⟩
              refine ihle2.varStable ?_
              rw [hacc1]
              exact (modelLe_addConstr m (.allDiff vs)).varStable hdecl
          · exact ih acc1 acc2 h (List.nodup_cons.mp hnd).2 r hr2

/-- Every key of the assignment map built by phase 1 is the id of some
processed shard (or was present already). -/
theorem phase1Go_keyShard (cs : ClusterState) :
    ∀ (l : List ShardV) (acc acc2 : P1Acc),
      phase1Go cs l acc = .ok acc2 →
      ∀ (k : Int) (vs : List Nat), lookupKey acc2.assignment k = some vs →
        (∃ vs0, lookupKey acc.assignment k = some vs0) ∨ ∃ r ∈ l, r.id = k := by
  intro l
  induction l with
  | nil =>
      intro acc acc2 h k vs hk
      cases h
      exact Or.inl ⟨vs, hk⟩
  | cons x rest ih =>
      intro acc acc2 h k vs hk
      simp only [phase1Go] at h
      cases hs : phase1Step cs acc x with
      | panicked a s => rw [hs] at h; cases h
      | ok acc1 =>
          rw [hs] at h
          rcases ih acc1 acc2 h k vs hk with ⟨vs0, hv0⟩ | ⟨r, hrmem, hrid⟩
          · obtain ⟨m, vsx, hb, hrf, hacc1⟩ := phase1Step_ok cs acc x acc1 hs
            by_cases hkx : k = x.id
            · exact Or.inr ⟨x, List.mem_cons_self x rest, hkx.symm⟩
            · rw [hacc1] at hv0
              rw [lookupKey_mapSet_other acc.assignment x.id k vsx hkx] at hv0
              exact Or.inl ⟨vs0, hv0⟩
          · exact Or.inr ⟨r, List.mem_cons_of_mem x hrmem, hrid⟩

/-- Phase 1 succeeds whenever the boundary node lookups succeed and no
shard has a negative rf. -/
theorem phase1Go_succeeds (cs : ClusterState) (a b : NodeV)
    (h0 : lookupNode cs.nodes 0 = some a)
    (h1 : lookupNode cs.nodes ((cs.nodes.length : Int) - 1) = some b) :
    ∀ (l : List ShardV), (∀ r ∈ l, 0 ≤ r.rf) →
      ∀ acc : P1Acc, ∃ acc2, phase1Go cs l acc = .ok acc2 := by
  intro l
  induction l with
  | nil =>
      intro _ acc
      exact ⟨acc, rfl⟩
  | cons x rest ih =>
      intro hrf acc
      obtain ⟨m2, vs, hb⟩ :=
        buildShardVarsGo_succeeds cs.nodes x.id a b h0 h1 x.rf.toNat acc.model
      have hstep : phase1Step cs acc x = .ok
          ⟨m2.addConstr (.allDiff vs), mapSet acc.assignment x.id vs,
            if (cs.nodes.length : Int) < x.rf then acc.badIds ++ [x.id]
            else acc.badIds⟩ := by
        unfold phase1Step
        rw [if_neg (not_lt.mpr (hrf x (List.mem_cons_self x rest))), hb]
      obtain ⟨acc2, hrest⟩ :=
        ih (fun r hr => hrf r (List.mem_cons_of_mem x hr)) _
      refine ⟨acc2, ?_⟩
      simp only [phase1Go, hstep]
      exact hrest

/-! ## Claim C3 — the rf-versus-cluster-size validation -/

/-- Claim C3 (amended): if some shard's rf exceeds the node count (and
the run does not panic first: the boundary node lookups succeed and no
rf is negative), `Solve` fails with the `RfGreaterThanClusterSize` error
listing exactly the offending shards in traversal order, for *every*
solver facade — so before the solver is invoked.  The failure does
**not** precede model work: decision variables and all-different
constraints are created for all shards first (see the counterexample). -/
theorem c3_rf_error (cs : ClusterState) (cfg : Configur)
    (oracle : Model → SolverResp) (a b : NodeV)
    (h0 : lookupNode cs.nodes 0 = some a)
    (h1 : lookupNode cs.nodes ((cs.nodes.length : Int) - 1) = some b)
    (hrfnn : ∀ r ∈ cs.shards, 0 ≤ r.rf)
    (hbad : ∃ r ∈ cs.shards, (cs.nodes.length : Int) < r.rf) :
    solveWith oracle cs cfg =
      .err (.rfGreaterThanClusterSize
        ((cs.shards.filter fun r =>
          decide ((cs.nodes.length : Int) < r.rf)).map fun r => r.id)) ∧
      (cs.shards.filter fun r =>
        decide ((cs.nodes.length : Int) < r.rf)).map (fun r => r.id) ≠ [] := by
  obtain ⟨acc, hgo⟩ := phase1Go_succeeds cs a b h0 h1 cs.shards hrfnn
    ⟨(initSt cs cfg).model, (initSt cs cfg).assignment, []⟩
  obtain ⟨-, -, hbadIds⟩ := phase1Go_facts cs cs.shards _ acc hgo
  have hne : (cs.shards.filter fun r =>
      decide ((cs.nodes.length : Int) < r.rf)).map (fun r => r.id) ≠ [] := by
    obtain ⟨r, hrmem, hrlt⟩ := hbad
    have : r ∈ cs.shards.filter fun r =>
        decide ((cs.nodes.length : Int) < r.rf) :=
      List.mem_filter.mpr ⟨hrmem, by simpa using hrlt⟩
    intro hnil
    rw [List.map_eq_nil_iff] at hnil
    rw [hnil] at this
    cases this
  have hbne : ¬ acc.badIds = [] := by
    rw [hbadIds]
    simpa using hne
  have hphase1 : phase1 (initSt cs cfg) =
      .fail { initSt cs cfg with model := acc.model, assignment := acc.assignment }
        (.rfGreaterThanClusterSize acc.badIds) := by
    unfold phase1
    rw [show (initSt cs cfg).cs = cs from rfl, hgo]
    dsimp only
    rw [if_neg hbne]
    rfl
  have hbuild : allocateBuild (initSt cs cfg) =
      .fail { initSt cs cfg with model := acc.model, assignment := acc.assignment }
        (.rfGreaterThanClusterSize acc.badIds) := by
    unfold allocateBuild
    rw [hphase1]
    rfl
  refine ⟨?_, hne⟩
  unfold solveWith
  rw [hbuild, hbadIds]
  simp

def csC3 : ClusterState :=
  { nodes := [{ id := 0, tags := [], resources := [] }],
    shards := [{ id := 7, rf := 2, tags := none, demands := [] }],
    currentAssignment := none }

/-- Claim C3 counterexample: on a one-node cluster with a single shard of
rf 2, `Solve` does fail with `RfGreaterThanClusterSize [7]` for every
solver facade, but at the moment of failure the model already holds two
decision variables and a posted constraint — the failure does *not*
happen "before decision variables or constraints are created". -/
theorem c3_counterexample :
    (∀ oracle : Model → SolverResp,
      solveWith oracle csC3 defaultConfiguration =
        .err (.rfGreaterThanClusterSize [7])) ∧
      ((allocateBuild (initSt csC3 defaultConfiguration)).state).model.vars.length
          = 2 ∧
      ((allocateBuild (initSt csC3 defaultConfiguration)).state).model.constraints
          ≠ [] := by
  refine ⟨fun oracle => rfl, by decide, by decide⟩

/-! ## Toolkit: the capacity phase -/

theorem lookupKey_isSome_of_mem {β : Type} (l : List (Int × β)) (p : Int × β)
    (hp : p ∈ l) : (lookupKey l p.1).isSome := by
  induction l with
  | nil => cases hp
  | cons q rest ih =>
      rcases List.mem_cons.mp hp with hq | hq
      · subst hq
        simp [lookupKey]
      · by_cases hk : q.1 = p.1 <;> simp [lookupKey, hk, ih hq]

theorem lookupShardL_isSome_of_mem (l : List ShardV) (r : ShardV) (k : Int)
    (hr : r ∈ l) (hk : r.id = k) : (lookupShardL l k).isSome := by
  induction l with
  | nil => cases hr
  | cons s rest ih =>
      rcases List.mem_cons.mp hr with hq | hq
      · subst hq
        simp [lookupShardL, hk]
      · by_cases hs : s.id = k <;> simp [lookupShardL, hs, ih hq]

/-- The interval-construction inner loop cannot fail when the shard id
resolves. -/
theorem resSlotsGo_succeeds (cs : ClusterState) (re : Resource)
    (fixedOne : Nat) (rid : Int) (r : ShardV)
    (hk : lookupShardL cs.shards rid = some r) :
    ∀ (slots : List (Nat × Nat)) (acc : ResAcc),
      ∃ acc2, resSlotsGo cs re fixedOne rid slots acc = .ok acc2 := by
  intro slots
  induction slots with
  | nil =>
      intro acc
      exact ⟨acc, rfl⟩
  | cons p rest ih =>
      obtain ⟨i, v⟩ := p
      intro acc
      obtain ⟨acc2, h2⟩ := ih
        ⟨(((acc.model.newIntVar 1 (cs.nodes.length : Int)
              "Adjusted intervals for upper bounds.").1.newInterval v
            (acc.model.newIntVar 1 (cs.nodes.length : Int)
              "Adjusted intervals for upper bounds.").2 fixedOne
            (resIntervalName rid i)).1.newConstant (r.demandOf re)
            (resDemandName rid)).1,
          acc.tasks ++ [((acc.model.newIntVar 1 (cs.nodes.length : Int)
              "Adjusted intervals for upper bounds.").1.newInterval v
            (acc.model.newIntVar 1 (cs.nodes.length : Int)
              "Adjusted intervals for upper bounds.").2 fixedOne
            (resIntervalName rid i)).2],
          acc.dems ++ [(((acc.model.newIntVar 1 (cs.nodes.length : Int)
              "Adjusted intervals for upper bounds.").1.newInterval v
            (acc.model.newIntVar 1 (cs.nodes.length : Int)
              "Adjusted intervals for upper bounds.").2 fixedOne
            (resIntervalName rid i)).1.newConstant (r.demandOf re)
            (resDemandName rid)).2]⟩
      refine ⟨acc2, ?_⟩
      simp only [resSlotsGo, hk]
      exact h2

/-- The outer interval-construction loop cannot fail when every
assignment key resolves to a shard. -/
theorem resEntriesGo_succeeds (cs : ClusterState) (re : Resource)
    (fixedOne : Nat) :
    ∀ (entries : List (Int × List Nat)),
      (∀ p ∈ entries, ∃ r, lookupShardL cs.shards p.1 = some r) →
      ∀ acc : ResAcc, ∃ acc2, resEntriesGo cs re fixedOne entries acc = .ok acc2 := by
  intro entries
  induction entries with
  | nil =>
      intro _ acc
      exact ⟨acc, rfl⟩
  | cons p rest ih =>
      intro hres acc
      obtain ⟨r, hr⟩ := hres p (List.mem_cons_self p rest)
      obtain ⟨acc1, h1⟩ := resSlotsGo_succeeds cs re fixedOne p.1 r hr p.2.enum acc
      obtain ⟨acc2, h2⟩ :=
        ih (fun q hq => hres q (List.mem_cons_of_mem p hq)) acc1
      refine ⟨acc2, ?_⟩
      have : resEntriesGo cs re fixedOne (p :: rest) acc =
          match resSlotsGo cs re fixedOne p.1 p.2.enum acc with
          | .panicked a s => .panicked a s
          | .ok acc1 => resEntriesGo cs re fixedOne rest acc1 := rfl
      rw [this, h1]
      exact h2

/-- The per-resource body fails with `insufficientCapacity` exactly when
the eager feasibility check trips. -/
theorem resForResource_fail (cs : ClusterState)
    (assignment : List (Int × List Nat)) (fixedOne : Nat) (re : Resource)
    (m : Model) (rc : Int) (hcap : rawCapacityCode cs re = .ok rc)
    (hlt : rc * (cs.nodes.length : Int) < totalDemandCode cs re) :
    resForResource cs assignment fixedOne re m = .fail m .insufficientCapacity := by
  unfold resForResource
  rw [hcap]
  dsimp only
  rw [if_pos hlt]

/-- The per-resource body succeeds when the check passes and all
assignment keys resolve. -/
theorem resForResource_ok (cs : ClusterState)
    (assignment : List (Int × List Nat)) (fixedOne : Nat) (re : Resource)
    (m : Model) (rc : Int) (hcap : rawCapacityCode cs re = .ok rc)
    (hge : ¬ rc * (cs.nodes.length : Int) < totalDemandCode cs re)
    (hkeys : ∀ p ∈ assignment, ∃ r, lookupShardL cs.shards p.1 = some r) :
    ∃ m2, resForResource cs assignment fixedOne re m = .ok m2 := by
  unfold resForResource
  rw [hcap]
  dsimp only
  rw [if_neg hge]
  obtain ⟨acc2, h2⟩ := resEntriesGo_succeeds cs re fixedOne assignment hkeys
    ⟨(m.newIntVar 0 rc (capVarName re)).1, [], []⟩
  rw [h2]
  exact ⟨_, rfl⟩

/-- The raw capacity expressed through the specification-level total
demand. -/
def rawCapSpec (cs : ClusterState) (re : Resource) : Int :=
  match lookupNode cs.nodes 0 with
  | some n0 => (lookupRes n0.resources re).getD (totalDemandSpec cs re)
  | none => 0

theorem rawCapacityCode_eq_spec (cs : ClusterState) (re : Resource)
    (n0 : NodeV) (h0 : lookupNode cs.nodes 0 = some n0) :
    rawCapacityCode cs re = .ok (rawCapSpec cs re) := by
  rw [rawCapacityCode_run cs re n0 h0]
  unfold rawCapSpec
  rw [h0]

/-- Phase 1 runs to a success state when the boundary lookups succeed
and every rf lies in `[0, |nodes|]`. -/
theorem phase1_ok_run (cs : ClusterState) (cfg : Configur) (a b : NodeV)
    (h0 : lookupNode cs.nodes 0 = some a)
    (h1 : lookupNode cs.nodes ((cs.nodes.length : Int) - 1) = some b)
    (hrfnn : ∀ r ∈ cs.shards, 0 ≤ r.rf)
    (hrfok : ∀ r ∈ cs.shards, ¬ (cs.nodes.length : Int) < r.rf) :
    ∃ acc : P1Acc,
      phase1Go cs cs.shards
        ⟨(initSt cs cfg).model, (initSt cs cfg).assignment, []⟩ = .ok acc ∧
      phase1 (initSt cs cfg) =
        .ok { initSt cs cfg with
          model := acc.model, assignment := acc.assignment } := by
  obtain ⟨acc, hgo⟩ := phase1Go_succeeds cs a b h0 h1 cs.shards hrfnn
    ⟨(initSt cs cfg).model, (initSt cs cfg).assignment, []⟩
  obtain ⟨-, -, hbadIds⟩ := phase1Go_facts cs cs.shards _ acc hgo
  have hfilter :
      cs.shards.filter (fun r => decide ((cs.nodes.length : Int) < r.rf)) = [] := by
    rw [List.filter_eq_nil_iff]
    intro r hr
    simpa using hrfok r hr
  have hbe : acc.badIds = [] := by
    rw [hbadIds, hfilter]
    simp
  refine ⟨acc, hgo, ?_⟩
  unfold phase1
  rw [show (initSt cs cfg).cs = cs from rfl, hgo]
  dsimp only
  rw [if_pos hbe]
  rfl

/-- The capacity phase fails on the disk resource when its eager check
trips. -/
theorem phaseResources_fail_disk (st : AllocSt) (rc : Int)
    (hcap : rawCapacityCode st.cs .disk = .ok rc)
    (hlt : rc * (st.cs.nodes.length : Int) < totalDemandCode st.cs .disk) :
    phaseResources st =
      .fail { st with
        model := (st.model.newConstant 1 "Fixed offset of size 1.").1 }
        .insufficientCapacity := by
  unfold phaseResources
  dsimp only
  rw [resForResource_fail st.cs st.assignment _ .disk _ rc hcap hlt]

/-- The capacity phase fails on the QPS resource when the disk check
passes but the QPS check trips. -/
theorem phaseResources_fail_qps (st : AllocSt) (rcD rcQ : Int)
    (hcapD : rawCapacityCode st.cs .disk = .ok rcD)
    (hgeD : ¬ rcD * (st.cs.nodes.length : Int) < totalDemandCode st.cs .disk)
    (hkeys : ∀ p ∈ st.assignment, ∃ r, lookupShardL st.cs.shards p.1 = some r)
    (hcapQ : rawCapacityCode st.cs .qps = .ok rcQ)
    (hltQ : rcQ * (st.cs.nodes.length : Int) < totalDemandCode st.cs .qps) :
    ∃ m1, phaseResources st = .fail { st with model := m1 }
      .insufficientCapacity := by
  unfold phaseResources
  dsimp only
  obtain ⟨m1, hok⟩ := resForResource_ok st.cs st.assignment
    (st.model.newConstant 1 "Fixed offset of size 1.").2 .disk
    (st.model.newConstant 1 "Fixed offset of size 1.").1 rcD hcapD hgeD hkeys
  refine ⟨m1, ?_⟩
  rw [hok]
  dsimp only
  rw [resForResource_fail st.cs st.assignment _ .qps m1 rcQ hcapQ hltQ]

/-! ## Claim C4 — eager insufficient-capacity detection -/

/-- Claim C4: with capacity/balancing enabled (and phase 1 passing: the
boundary node lookups succeed and every rf lies in `[0, |nodes|]`), if
for the disk or the QPS resource `rawCap · |nodes| < totalDemand`, then
`Solve` fails with the `InsufficientCapacity` error — and it does so for
*every* solver facade, i.e. the structural infeasibility is detected
without invoking the solver. -/
theorem c4_insufficient_capacity (cs : ClusterState) (cfg : Configur)
    (oracle : Model → SolverResp) (a b : NodeV)
    (hres : cfg.withResources = true)
    (h0 : lookupNode cs.nodes 0 = some a)
    (h1 : lookupNode cs.nodes ((cs.nodes.length : Int) - 1) = some b)
    (hrfnn : ∀ r ∈ cs.shards, 0 ≤ r.rf)
    (hrfok : ∀ r ∈ cs.shards, ¬ (cs.nodes.length : Int) < r.rf)
    (hbad :
      rawCapSpec cs .disk * (cs.nodes.length : Int) < totalDemandSpec cs .disk ∨
      rawCapSpec cs .qps * (cs.nodes.length : Int) < totalDemandSpec cs .qps) :
    solveWith oracle cs cfg = .err .insufficientCapacity := by
  obtain ⟨acc, hgo, hphase1⟩ := phase1_ok_run cs cfg a b h0 h1 hrfnn hrfok
  have hcapD : rawCapacityCode cs .disk = .ok (rawCapSpec cs .disk) :=
    rawCapacityCode_eq_spec cs .disk a h0
  have hcapQ : rawCapacityCode cs .qps = .ok (rawCapSpec cs .qps) :=
    rawCapacityCode_eq_spec cs .qps a h0
  have hkeys : ∀ p ∈ acc.assignment, ∃ r, lookupShardL cs.shards p.1 = some r := by
    intro p hp
    obtain ⟨vs, hvs⟩ := Option.isSome_iff_exists.mp
      (lookupKey_isSome_of_mem acc.assignment p hp)
    rcases phase1Go_keyShard cs cs.shards _ acc hgo p.1 vs hvs with
      ⟨vs0, hv0⟩ | ⟨r, hrmem, hrid⟩
    · simp [initSt, lookupKey] at hv0
    · exact Option.isSome_iff_exists.mp
        (lookupShardL_isSome_of_mem cs.shards r p.1 hrmem hrid)
  have hpr : ∃ m1,
      phaseResources { initSt cs cfg with
        model := acc.model, assignment := acc.assignment } =
      .fail { initSt cs cfg with model := m1, assignment := acc.assignment }
        .insufficientCapacity := by
    rcases hbad with hbadD | hbadQ
    · refine ⟨_, phaseResources_fail_disk _ (rawCapSpec cs .disk) hcapD ?_⟩
      rw [totalDemandCode_eq_spec]
      exact hbadD
    · by_cases hD :
        rawCapSpec cs .disk * (cs.nodes.length : Int) < totalDemandCode cs .disk
      · exact ⟨_, phaseResources_fail_disk _ (rawCapSpec cs .disk) hcapD hD⟩
      · obtain ⟨m1, hq⟩ := phaseResources_fail_qps
          { initSt cs cfg with model := acc.model, assignment := acc.assignment }
          (rawCapSpec cs .disk) (rawCapSpec cs .qps) hcapD hD hkeys hcapQ
          (by rw [totalDemandCode_eq_spec]; exact hbadQ)
        exact ⟨m1, hq⟩
  obtain ⟨m1, hpr⟩ := hpr
  have hbuild : allocateBuild (initSt cs cfg) =
      .fail { initSt cs cfg with model := m1, assignment := acc.assignment }
        .insufficientCapacity := by
    unfold allocateBuild
    rw [hphase1]
    simp only [BOut.andThen]
    rw [if_pos (show ({ initSt cs cfg with
        model := acc.model, assignment := acc.assignment } :
          AllocSt).cfg.withResources = true from hres)]
    rw [hpr]
  unfold solveWith
  rw [hbuild]

def csC4 : ClusterState :=
  { nodes := [{ id := 0, tags := [], resources := [(.disk, 1)] },
      { id := 1, tags := [], resources := [(.disk, 1)] }],
    shards := [{ id := 0, rf := 1, tags := none, demands := [(.disk, 5)] }],
    currentAssignment := none }

/-! ## Claim C7 — determinism and traversal order

The embedding makes the Go map iteration order explicit as the list
order of `ClusterState.shards`: the Go runtime is free to produce any
order, and different orders are different runs on the same logical map.
The claim's "stable traversal" premise fails: two orders of the same
shard map build different models, and a single (deterministic, sound)
solver facade then returns different allocations.  Determinism does hold
whenever the traversal orders coincide — in particular when both are
sorted by shard id. -/

/-- Claim C7 (amended): `Solve` is a function of the cluster state
*including its traversal orders*: if two invocations see the same nodes
and prior assignment and their shard-map traversals are permutations of
each other that are both sorted by id (hence equal), the allocations are
identical for any solver facade.  The code itself does not sort, so
coincidence of the iteration orders is not guaranteed by Go. -/
theorem c7_sorted_deterministic (cs1 cs2 : ClusterState) (cfg : Configur)
    (oracle : Model → SolverResp)
    (hn : cs1.nodes = cs2.nodes)
    (hca : cs1.currentAssignment = cs2.currentAssignment)
    (hperm : cs1.shards.Perm cs2.shards)
    (hs1 : cs1.shards.Pairwise fun r s => r.id < s.id)
    (hs2 : cs2.shards.Pairwise fun r s => r.id < s.id) :
    solveWith oracle cs1 cfg = solveWith oracle cs2 cfg := by
  haveI : IsAntisymm ShardV (fun r s => r.id < s.id) :=
    ⟨fun a b hab hba => absurd (lt_trans hab hba) (lt_irrefl _)⟩
  have hsh : cs1.shards = cs2.shards :=
    List.eq_of_perm_of_sorted hperm hs1 hs2
  have : cs1 = cs2 := by
    cases cs1
    cases cs2
    simp_all
  rw [this]

def shardC7a : ShardV := { id := 0, rf := 1, tags := none, demands := [] }

def shardC7b : ShardV := { id := 1, rf := 2, tags := none, demands := [] }

def csC7a : ClusterState :=
  { nodes := [{ id := 0, tags := [], resources := [] },
      { id := 1, tags := [], resources := [] }],
    shards := [shardC7a, shardC7b], currentAssignment := none }

def csC7b : ClusterState :=
  { nodes := [{ id := 0, tags := [], resources := [] },
      { id := 1, tags := [], resources := [] }],
    shards := [shardC7b, shardC7a], currentAssignment := none }

def modelC7a : Model :=
  ((allocateBuild (initSt csC7a defaultConfiguration)).state).model

def modelC7b : Model :=
  ((allocateBuild (initSt csC7b defaultConfiguration)).state).model

def sigC7a : Nat → Int := fun i => if i = 0 then 0 else if i = 1 then 0 else 1

def sigC7b : Nat → Int := fun i => if i = 0 then 0 else if i = 1 then 1 else 1

/-- A deterministic solver facade: a plain function of the model. -/
def oracleC7 : Model → SolverResp := fun m =>
  if m = modelC7a then .solved sigC7a (fun _ => false)
  else if m = modelC7b then .solved sigC7b (fun _ => false)
  else .notSolved

/-- Claim C7 counterexample: the same logical inputs — equal node maps,
equal prior assignment, shard maps that are permutations of each other
(two iteration orders of one Go map) — produce *different* models and,
under one fixed deterministic and sound solver facade, different
allocations: shard 0 is placed on node 0 in one run and on node 1 in the
other.  Model construction therefore does not traverse the shard set in
a stable order. -/
theorem c7_counterexample :
    csC7a.nodes = csC7b.nodes ∧
      csC7a.currentAssignment = csC7b.currentAssignment ∧
      csC7a.shards.Perm csC7b.shards ∧
      modelC7a ≠ modelC7b ∧
      (∀ m σ β, oracleC7 m = .solved σ β → m.Satisfies σ β) ∧
      solveWith oracleC7 csC7a defaultConfiguration =
        .ok [(0, [0]), (1, [0, 1])] ∧
      solveWith oracleC7 csC7b defaultConfiguration =
        .ok [(1, [0, 1]), (0, [1])] ∧
      lookupKey [(0, [0]), (1, [0, 1])] (0 : Int) ≠
        lookupKey [(1, [0, 1]), (0, [1])] (0 : Int) := by
  refine ⟨rfl, rfl, ?_, by decide, ?_, by decide, by decide, by decide⟩
  · exact List.Perm.swap shardC7b shardC7a []
  · intro m σ β h
    unfold oracleC7 at h
    split_ifs at h with h1 h2
    · injection h with hσ hβ
      subst h1
      rw [← hσ, ← hβ]
      decide
    · injection h with hσ hβ
      subst h2
      rw [← hσ, ← hβ]
      decide

/-- Witness for `c7_sorted_deterministic` at a concrete input. -/
theorem c7_sorted_deterministic_witness :
    solveWith oracleC7 csC7a defaultConfiguration =
      solveWith oracleC7 csC7a defaultConfiguration :=
  c7_sorted_deterministic csC7a csC7a defaultConfiguration oracleC7 rfl rfl
    (List.Perm.refl _) (by decide) (by decide)

/-! ## Toolkit: decomposing a successful run -/

theorem andThen_ok {x : BOut AllocSt} {f : AllocSt → BOut AllocSt}
    {stF : AllocSt} (h : x.andThen f = .ok stF) :
    ∃ st1, x = .ok st1 ∧ f st1 = .ok stF := by
  cases x with
  | ok a => exact ⟨a, rfl, h⟩
  | fail a e => simp [BOut.andThen] at h
  | panicked a s => simp [BOut.andThen] at h

/-- A successful build runs all five phases successfully, in order. -/
theorem allocateBuild_ok {st stF : AllocSt} (h : allocateBuild st = .ok stF) :
    ∃ st1 st2 st3, phase1 st = .ok st1 ∧
      ((if st1.cfg.withResources then phaseResources st1 else .ok st1) :
        BOut AllocSt) = .ok st2 ∧
      ((if st2.cfg.withTagAffinity then phaseTags st2 else .ok st2) :
        BOut AllocSt) = .ok st3 ∧
      ((if (phaseAllDiff2 st3).cfg.withMinimalChurn ||
            (phaseAllDiff2 st3).cfg.maxChurn ≠ noMaxChurn then
          phaseChurn (phaseAllDiff2 st3)
        else .ok (phaseAllDiff2 st3)) : BOut AllocSt) = .ok stF := by
  unfold allocateBuild at h
  obtain ⟨st3, h3, h4⟩ := andThen_ok h
  obtain ⟨st2, h2, h3b⟩ := andThen_ok h3
  obtain ⟨st1, h1, h2b⟩ := andThen_ok h2
  exact ⟨st1, st2, st3, h1, h2b, h3b, h4⟩

/-- Inversion of a successful phase 1. -/
theorem phase1_ok_inv {st st1 : AllocSt} (h : phase1 st = .ok st1) :
    ∃ acc : P1Acc,
      phase1Go st.cs st.cs.shards ⟨st.model, st.assignment, []⟩ = .ok acc ∧
      acc.badIds = [] ∧
      st1 = { st with model := acc.model, assignment := acc.assignment } := by
  unfold phase1 at h
  cases hgo : phase1Go st.cs st.cs.shards ⟨st.model, st.assignment, []⟩ with
  | panicked a s => rw [hgo] at h; cases h
  | ok acc =>
      rw [hgo] at h
      dsimp only at h
      by_cases hbe : acc.badIds = []
      · rw [if_pos hbe] at h
        cases h
        exact ⟨acc, rfl, hbe, rfl⟩
      · rw [if_neg hbe] at h
        cases h

/-! Model-growth lemmas for the later phases (success paths). -/

theorem resSlotsGo_modelLe (cs : ClusterState) (re : Resource)
    (fixedOne : Nat) (rid : Int) :
    ∀ (slots : List (Nat × Nat)) (acc acc2 : ResAcc),
      resSlotsGo cs re fixedOne rid slots acc = .ok acc2 →
      ModelLe acc.model acc2.model := by
  intro slots
  induction slots with
  | nil =>
      intro acc acc2 h
      cases h
      exact ModelLe.refl _
  | cons p rest ih =>
      obtain ⟨i, v⟩ := p
      intro acc acc2 h
      simp only [resSlotsGo] at h
      cases hk : lookupShardL cs.shards rid with
      | none => rw [hk] at h; cases h
      | some r =>
          rw [hk] at h
          refine ModelLe.trans ?_ (ih _ _ h)
          exact ((modelLe_newIntVar acc.model 1 (cs.nodes.length : Int)
              "Adjusted intervals for upper bounds.").trans
            (modelLe_newInterval _ v _ fixedOne (resIntervalName rid i))).trans
            (modelLe_newConstant _ (r.demandOf re) (resDemandName rid))

theorem resEntriesGo_modelLe (cs : ClusterState) (re : Resource)
    (fixedOne : Nat) :
    ∀ (entries : List (Int × List Nat)) (acc acc2 : ResAcc),
      resEntriesGo cs re fixedOne entries acc = .ok acc2 →
      ModelLe acc.model acc2.model := by
  intro entries
  induction entries with
  | nil =>
      intro acc acc2 h
      cases h
      exact ModelLe.refl _
  | cons p rest ih =>
      intro acc acc2 h
      simp only [resEntriesGo] at h
      cases hs : resSlotsGo cs re fixedOne p.1 p.2.enum acc with
      | panicked a s => rw [hs] at h; cases h
      | ok acc1 =>
          rw [hs] at h
          exact (resSlotsGo_modelLe cs re fixedOne p.1 _ _ _ hs).trans (ih _ _ h)

theorem resForResource_modelLe (cs : ClusterState)
    (assignment : List (Int × List Nat)) (fixedOne : Nat) (re : Resource)
    (m m2 : Model) (h : resForResource cs assignment fixedOne re m = .ok m2) :
    ModelLe m m2 := by
  unfold resForResource at h
  cases hc : rawCapacityCode cs re with
  | panicked s => rw [hc] at h; cases h
  | ok rc =>
      rw [hc] at h
      dsimp only at h
      by_cases hlt : rc * (cs.nodes.length : Int) < totalDemandCode cs re
      · rw [if_pos hlt] at h; cases h
      · rw [if_neg hlt] at h
        cases he : resEntriesGo cs re fixedOne assignment
            ⟨(m.newIntVar 0 rc (capVarName re)).1, [], []⟩ with
        | panicked a s => rw [he] at h; cases h
        | ok acc =>
            rw [he] at h
            cases h
            exact ((modelLe_newIntVar m 0 rc (capVarName re)).trans
              (resEntriesGo_modelLe cs re fixedOne assignment _ _ he)).trans
              ((modelLe_addConstr acc.model _).trans (modelLe_addObjective _ _))

theorem phaseResources_modelLe {st st2 : AllocSt}
    (h : phaseResources st = .ok st2) : ModelLe st.model st2.model := by
  unfold phaseResources at h
  dsimp only at h
  cases hd : resForResource st.cs st.assignment
      (st.model.newConstant 1 "Fixed offset of size 1.").2 .disk
      (st.model.newConstant 1 "Fixed offset of size 1.").1 with
  | panicked m s => rw [hd] at h; cases h
  | fail m e => rw [hd] at h; cases h
  | ok m1 =>
      rw [hd] at h
      dsimp only at h
      cases hq : resForResource st.cs st.assignment
          (st.model.newConstant 1 "Fixed offset of size 1.").2 .qps m1 with
      | panicked m s => rw [hq] at h; cases h
      | fail m e => rw [hq] at h; cases h
      | ok m2 =>
          rw [hq] at h
          cases h
          exact ((modelLe_newConstant st.model 1
            "Fixed offset of size 1.").trans
            (resForResource_modelLe st.cs st.assignment _ .disk _ _ hd)).trans
            (resForResource_modelLe st.cs st.assignment _ .qps _ _ hq)

theorem tagSlotsGo_modelLe (tuples : List (List Int)) (vs : List Nat) :
    ∀ (idx : List Nat) (m m2 : Model),
      tagSlotsGo tuples vs idx m = .ok m2 → ModelLe m m2 := by
  intro idx
  induction idx with
  | nil =>
      intro m m2 h
      cases h
      exact ModelLe.refl _
  | cons i rest ih =>
      intro m m2 h
      simp only [tagSlotsGo] at h
      cases hv : vs[i]? with
      | none => rw [hv] at h; cases h
      | some v =>
          rw [hv] at h
          exact (modelLe_addConstr m _).trans (ih _ _ h)

theorem tagsGo_modelLe (cs : ClusterState) (assignment : List (Int × List Nat)) :
    ∀ (l : List ShardV) (acc acc2 : Model × List Int),
      tagsGo cs assignment l acc = .ok acc2 → ModelLe acc.1 acc2.1 := by
  intro l
  induction l with
  | nil =>
      intro acc acc2 h
      cases h
      exact ModelLe.refl _
  | cons r rest ih =>
      intro acc acc2 h
      simp only [tagsGo] at h
      cases hs : tagsStep cs assignment acc r with
      | panicked a s => rw [hs] at h; cases h
      | ok acc1 =>
          rw [hs] at h
          refine ModelLe.trans ?_ (ih _ _ h)
          unfold tagsStep at hs
          dsimp only at hs
          cases ht : tagSlotsGo (forbTuples cs.nodes r)
              ((lookupKey assignment r.id).getD [])
              (List.range r.rf.toNat) acc.1 with
          | panicked m s => rw [ht] at hs; cases hs
          | ok m =>
              rw [ht] at hs
              cases hs
              exact tagSlotsGo_modelLe _ _ _ _ _ ht

theorem phaseTags_modelLe {st st2 : AllocSt} (h : phaseTags st = .ok st2) :
    ModelLe st.model st2.model := by
  unfold phaseTags at h
  cases ht : tagsGo st.cs st.assignment st.cs.shards (st.model, []) with
  | panicked a s => rw [ht] at h; cases h
  | ok a =>
      rw [ht] at h
      dsimp only at h
      by_cases hw : a.2 = []
      · rw [if_pos hw] at h
        cases h
        exact tagsGo_modelLe st.cs st.assignment st.cs.shards _ _ ht
      · rw [if_neg hw] at h
        cases h

theorem phaseAllDiff2_modelLe (st : AllocSt) :
    ModelLe st.model (phaseAllDiff2 st).model := by
  unfold phaseAllDiff2
  dsimp only
  generalize st.assignment = l
  induction l generalizing st with
  | nil => exact ModelLe.refl _
  | cons p rest ih =>
      simp only [List.foldl_cons]
      exact ModelLe.trans (modelLe_addConstr st.model _)
        (by
          have := ih { st with model := st.model.addConstr (.allDiff p.2) }
          simpa using this)

theorem churnSlotsGo_modelLe (nodes : List NodeV) (rid : Int)
    (prevIds : List Int) :
    ∀ (slots : List (Nat × Nat)) (acc acc2 : Model × List ChurnInfo),
      churnSlotsGo nodes rid prevIds slots acc = .ok acc2 →
      ModelLe acc.1 acc2.1 := by
  intro slots
  induction slots with
  | nil =>
      intro acc acc2 h
      cases h
      exact ModelLe.refl _
  | cons p rest ih =>
      obtain ⟨i, iv⟩ := p
      intro acc acc2 h
      obtain ⟨m, infos⟩ := acc
      simp only [churnSlotsGo] at h
      cases hp : prevIds[i]? with
      | none => rw [hp] at h; cases h
      | some pv =>
          rw [hp] at h
          dsimp only at h
          cases hn : lookupNode nodes pv with
          | none =>
              rw [hn] at h
              exact ih _ _ h
          | some nd =>
              rw [hn] at h
              refine ModelLe.trans ?_ (ih _ _ h)
              exact ((modelLe_newLiteral m (churnLitName rid i pv)).trans
                (modelLe_newConstant _ pv (churnConstName rid i pv))).trans
                (modelLe_addConstr _ _)

theorem churnShardsGo_modelLe (nodes : List NodeV)
    (prevMap : List (Int × List Int)) (assignment : List (Int × List Nat)) :
    ∀ (l : List ShardV) (acc acc2 : Model × List ChurnInfo),
      churnShardsGo nodes prevMap assignment l acc = .ok acc2 →
      ModelLe acc.1 acc2.1 := by
  intro l
  induction l with
  | nil =>
      intro acc acc2 h
      cases h
      exact ModelLe.refl _
  | cons r rest ih =>
      intro acc acc2 h
      simp only [churnShardsGo] at h
      cases hp : lookupKey prevMap r.id with
      | none =>
          rw [hp] at h
          exact ih _ _ h
      | some prevIds =>
          rw [hp] at h
          dsimp only at h
          cases hs : churnSlotsGo nodes r.id prevIds
              ((lookupKey assignment r.id).getD []).enum acc with
          | panicked a s => rw [hs] at h; cases h
          | ok acc1 =>
              rw [hs] at h
              exact (churnSlotsGo_modelLe nodes r.id prevIds _ _ _ hs).trans
                (ih _ _ h)

theorem phaseChurn_modelLe {st st2 : AllocSt} (h : phaseChurn st = .ok st2) :
    ModelLe st.model st2.model := by
  unfold phaseChurn at h
  cases hc : st.cs.currentAssignment with
  | none => rw [hc] at h; cases h
  | some prevMap =>
      rw [hc] at h
      dsimp only at h
      cases hg : churnShardsGo st.cs.nodes prevMap st.assignment st.cs.shards
          (st.model, []) with
      | panicked a s => rw [hg] at h; cases h
      | ok a =>
          rw [hg] at h
          dsimp only at h
          cases h
          have h1 : ModelLe st.model a.1 :=
            churnShardsGo_modelLe st.cs.nodes prevMap st.assignment
              st.cs.shards _ _ hg
          dsimp only
          by_cases hk : st.cfg.maxChurn ≠ noMaxChurn
          · rw [if_pos hk]
            by_cases hm : st.cfg.withMinimalChurn
            · rw [if_pos hm]
              exact h1.trans ((modelLe_addObjective _ _).trans
                (modelLe_addConstr _ _))
            · rw [if_neg hm]
              exact h1.trans (modelLe_addConstr _ _)
          · rw [if_neg hk]
            by_cases hm : st.cfg.withMinimalChurn
            · rw [if_pos hm]
              exact h1.trans (modelLe_addObjective _ _)
            · rw [if_neg hm]
              exact h1

/-- The success state of the whole build extends the phase-1 model and
keeps its assignment, cluster state and configuration. -/
theorem allocateBuild_ok_invariants {st stF st1 : AllocSt}
    (h1 : phase1 st = .ok st1) (h : allocateBuild st = .ok stF) :
    ModelLe st1.model stF.model ∧ stF.assignment = st1.assignment ∧
      stF.cs = st.cs ∧ stF.cfg = st.cfg := by
  obtain ⟨su1, su2, su3, hp1, hp2, hp3, hp4⟩ := allocateBuild_ok h
  rw [h1] at hp1
  cases hp1
  have f2 : ModelLe st1.model su2.model ∧ su2.assignment = st1.assignment := by
    by_cases hr : st1.cfg.withResources
    · rw [if_pos hr] at hp2
      have ha := (phaseResources_frame st1).2.2
      rw [hp2] at ha
      exact ⟨phaseResources_modelLe hp2, ha⟩
    · rw [if_neg hr] at hp2
      cases hp2
      exact ⟨ModelLe.refl _, rfl⟩
  have f3 : ModelLe su2.model su3.model ∧ su3.assignment = su2.assignment := by
    by_cases ht : su2.cfg.withTagAffinity
    · rw [if_pos ht] at hp3
      have ha := (phaseTags_frame su2).2.2
      rw [hp3] at ha
      exact ⟨phaseTags_modelLe hp3, ha⟩
    · rw [if_neg ht] at hp3
      cases hp3
      exact ⟨ModelLe.refl _, rfl⟩
  have f4 : ModelLe su3.model stF.model ∧ stF.assignment = su3.assignment := by
    have had : ModelLe su3.model (phaseAllDiff2 su3).model :=
      phaseAllDiff2_modelLe su3
    by_cases hc : ((phaseAllDiff2 su3).cfg.withMinimalChurn ||
        (phaseAllDiff2 su3).cfg.maxChurn ≠ noMaxChurn : Bool)
    · rw [if_pos hc] at hp4
      refine ⟨had.trans (phaseChurn_modelLe hp4), ?_⟩
      have e1 := (phaseChurn_frame (phaseAllDiff2 su3)).2.2
      rw [hp4] at e1
      have e1b : stF.assignment = (phaseAllDiff2 su3).assignment := e1
      rw [e1b, (phaseAllDiff2_frame su3).2.2]
    · rw [if_neg hc] at hp4
      cases hp4
      exact ⟨had, (phaseAllDiff2_frame su3).2.2⟩
  have hcs := (allocateBuild_frame st).1
  have hcfg := (allocateBuild_frame st).2
  rw [h] at hcs hcfg
  exact ⟨(f2.1.trans f3.1).trans f4.1,
    f4.2.trans (f3.2.trans f2.2), hcs, hcfg⟩

/-! ## Toolkit: the decode loop and node lookups -/

theorem solveWith_ok {oracle : Model → SolverResp} {cs : ClusterState}
    {cfg : Configur} {alloc : List (Int × List Int)}
    (h : solveWith oracle cs cfg = .ok alloc) :
    ∃ st σ β, allocateBuild (initSt cs cfg) = .ok st ∧
      oracle st.model = .solved σ β ∧ alloc = decode st σ := by
  unfold solveWith at h
  cases hb : allocateBuild (initSt cs cfg) with
  | panicked a s => rw [hb] at h; cases h
  | fail a e => rw [hb] at h; cases h
  | ok st =>
      rw [hb] at h
      dsimp only at h
      cases ho : oracle st.model with
      | invalid => rw [ho] at h; cases h
      | notSolved => rw [ho] at h; cases h
      | solved σ β =>
          rw [ho] at h
          cases h
          exact ⟨st, σ, β, rfl, ho, rfl⟩

theorem mem_mapSet {β : Type} (l : List (Int × β)) (k : Int) (v : β)
    (p : Int × β) (hp : p ∈ mapSet l k v) : p ∈ l ∨ p.1 = k := by
  induction l with
  | nil =>
      simp only [mapSet] at hp
      rcases List.mem_singleton.mp hp with h
      exact Or.inr (by rw [h])
  | cons q rest ih =>
      by_cases hq : q.1 = k
      · simp only [mapSet, if_pos hq] at hp
        rcases List.mem_cons.mp hp with h | h
        · exact Or.inr (by rw [h])
        · exact Or.inl (List.mem_cons_of_mem q h)
      · simp only [mapSet, if_neg hq] at hp
        rcases List.mem_cons.mp hp with h | h
        · exact Or.inl (h ▸ List.mem_cons_self q rest)
        · rcases ih h with h2 | h2
          · exact Or.inl (List.mem_cons_of_mem q h2)
          · exact Or.inr h2

theorem mem_mapAppendVals (k : Int) (vals : List Int) :
    ∀ (res : List (Int × List Int)) (p : Int × List Int),
      p ∈ mapAppendVals res k vals → p ∈ res ∨ p.1 = k := by
  induction vals with
  | nil =>
      intro res p hp
      exact Or.inl hp
  | cons v vs ih =>
      intro res p hp
      have hstep : mapAppendVals res k (v :: vs) =
          mapAppendVals (mapSet res k (((lookupKey res k).getD []) ++ [v])) k vs :=
        rfl
      rw [hstep] at hp
      rcases ih _ p hp with h | h
      · exact (mem_mapSet _ k _ p h).imp id id
      · exact Or.inr h

theorem lookupKey_mapAppendVals_other (k k2 : Int) (hne : k2 ≠ k)
    (vals : List Int) :
    ∀ res : List (Int × List Int),
      lookupKey (mapAppendVals res k vals) k2 = lookupKey res k2 := by
  induction vals with
  | nil =>
      intro res
      rfl
  | cons v vs ih =>
      intro res
      have hstep : mapAppendVals res k (v :: vs) =
          mapAppendVals (mapSet res k (((lookupKey res k).getD []) ++ [v])) k vs :=
        rfl
      rw [hstep, ih, lookupKey_mapSet_other _ _ _ _ hne]

theorem lookupKey_mapAppendVals_acc (k : Int) (vals : List Int) :
    ∀ (res : List (Int × List Int)) (cur : List Int),
      lookupKey res k = some cur →
      lookupKey (mapAppendVals res k vals) k = some (cur ++ vals) := by
  induction vals with
  | nil =>
      intro res cur h
      simpa [mapAppendVals] using h
  | cons v vs ih =>
      intro res cur h
      have hstep : mapAppendVals res k (v :: vs) =
          mapAppendVals (mapSet res k (((lookupKey res k).getD []) ++ [v])) k vs :=
        rfl
      rw [hstep, h]
      have h2 := ih (mapSet res k (cur ++ [v])) (cur ++ [v])
        (lookupKey_mapSet_self res k (cur ++ [v]))
      simpa [List.append_assoc] using h2

theorem lookupKey_mapAppendVals_none (k : Int) (vals : List Int)
    (res : List (Int × List Int)) (h : lookupKey res k = none) :
    lookupKey (mapAppendVals res k vals) k =
      if vals = [] then none else some vals := by
  cases vals with
  | nil => simpa [mapAppendVals] using h
  | cons v vs =>
      have hstep : mapAppendVals res k (v :: vs) =
          mapAppendVals (mapSet res k (((lookupKey res k).getD []) ++ [v])) k vs :=
        rfl
      rw [hstep, h]
      have h2 := lookupKey_mapAppendVals_acc k vs (mapSet res k [v]) [v]
        (lookupKey_mapSet_self res k [v])
      simpa using h2

theorem lookupKey_mem {β : Type} (l : List (Int × β)) (k : Int) (v : β)
    (h : lookupKey l k = some v) : (k, v) ∈ l := by
  induction l with
  | nil => cases h
  | cons p rest ih =>
      obtain ⟨pk, pv⟩ := p
      by_cases hp : pk = k
      · subst hp
        simp only [lookupKey, if_pos rfl] at h
        cases h
        exact List.mem_cons_self _ _
      · simp only [lookupKey, if_neg hp] at h
        exact List.mem_cons_of_mem _ (ih h)

/-- Keys untouched by the decode fold keep their value. -/
theorem decodeGo_stable (assignment : List (Int × List Nat)) (σ : Nat → Int) :
    ∀ (l : List ShardV) (res : List (Int × List Int)) (k : Int),
      (∀ r ∈ l, r.id ≠ k) →
      lookupKey (l.foldl (fun res r =>
        mapAppendVals res r.id (((lookupKey assignment r.id).getD []).map σ))
          res) k = lookupKey res k := by
  intro l
  induction l with
  | nil =>
      intro res k _
      rfl
  | cons x rest ih =>
      intro res k hk
      simp only [List.foldl_cons]
      rw [ih _ k fun r hr => hk r (List.mem_cons_of_mem x hr)]
      exact lookupKey_mapAppendVals_other x.id k
        (fun h => hk x (List.mem_cons_self x rest) h.symm) _ res

/-- Every entry of the decode fold comes from the seed or from a shard. -/
theorem decodeGo_mem (assignment : List (Int × List Nat)) (σ : Nat → Int) :
    ∀ (l : List ShardV) (res : List (Int × List Int)) (p : Int × List Int),
      p ∈ l.foldl (fun res r =>
        mapAppendVals res r.id (((lookupKey assignment r.id).getD []).map σ)) res →
      p ∈ res ∨ ∃ r ∈ l, r.id = p.1 := by
  intro l
  induction l with
  | nil =>
      intro res p hp
      exact Or.inl hp
  | cons x rest ih =>
      intro res p hp
      simp only [List.foldl_cons] at hp
      rcases ih _ p hp with h | ⟨r, hrmem, hrid⟩
      · rcases mem_mapAppendVals x.id _ res p h with h2 | h2
        · exact Or.inl h2
        · exact Or.inr ⟨x, List.mem_cons_self x rest, h2.symm⟩
      · exact Or.inr ⟨r, List.mem_cons_of_mem x hrmem, hrid⟩

/-- The decoded entry of each shard (shard ids pairwise distinct). -/
theorem decodeGo_entry (assignment : List (Int × List Nat)) (σ : Nat → Int) :
    ∀ (l : List ShardV) (res : List (Int × List Int)),
      ((l.map fun r => r.id).Nodup) →
      ∀ r ∈ l, lookupKey res r.id = none →
      lookupKey (l.foldl (fun res r =>
        mapAppendVals res r.id (((lookupKey assignment r.id).getD []).map σ))
          res) r.id =
        (if ((lookupKey assignment r.id).getD []).map σ = [] then none
          else some (((lookupKey assignment r.id).getD []).map σ)) := by
  intro l
  induction l with
  | nil =>
      intro res _ r hr
      cases hr
  | cons x rest ih =>
      intro res hnd r hr h0
      simp only [List.foldl_cons]
      rcases List.mem_cons.mp hr with hreq | hr2
      · subst hreq
        have hfresh : ∀ r2 ∈ rest, r2.id ≠ r.id := by
          intro r2 hr2 heq
          have hmem : r.id ∈ rest.map fun s => s.id := by
            rw [← heq]
            exact List.mem_map_of_mem (fun s => s.id) hr2
          exact (List.nodup_cons.mp hnd).1 hmem
        rw [decodeGo_stable assignment σ rest _ r.id hfresh]
        exact lookupKey_mapAppendVals_none r.id _ res h0
      · have hne : r.id ≠ x.id := by
          intro heq
          have hmem : x.id ∈ rest.map fun s => s.id := by
            rw [← heq]
            exact List.mem_map_of_mem (fun s => s.id) hr2
          exact (List.nodup_cons.mp hnd).1 hmem
        refine ih _ (List.nodup_cons.mp hnd).2 r hr2 ?_
        rw [lookupKey_mapAppendVals_other x.id r.id hne _ res]
        exact h0

theorem lookupNode_eq_id (l : List NodeV) (k : Int) (n : NodeV)
    (h : lookupNode l k = some n) : n.id = k := by
  induction l with
  | nil => cases h
  | cons x rest ih =>
      by_cases hx : x.id = k
      · simp only [lookupNode, if_pos hx] at h
        cases h
        exact hx
      · simp only [lookupNode, if_neg hx] at h
        exact ih h

theorem lookupNode_isSome_of_mem (l : List NodeV) (n : NodeV) (hn : n ∈ l) :
    (lookupNode l n.id).isSome := by
  induction l with
  | nil => cases hn
  | cons x rest ih =>
      rcases List.mem_cons.mp hn with h | h
      · subst h
        simp [lookupNode]
      · by_cases hx : x.id = n.id <;> simp [lookupNode, hx, ih h]

/-! ## Claim C1 — shape of a successful allocation -/

/-- Claim C1 (amended): whenever `Solve` returns an allocation (shard
ids pairwise distinct; a sound solver facade), every returned replica
list — on every cluster state, whatever the node id set — has length
`rf` and pairwise-distinct node ids; and **when the cluster's node id
set is exactly `0 .. |nodes|-1`** (in any map iteration order) every
returned id also names a node of the cluster.  For other id sets this
last part fails (see the counterexample), because the slot domain is
the single interval between the ids of the nodes keyed `0` and
`|nodes|-1`. -/
theorem c1_allocation_wellformed (cs : ClusterState) (cfg : Configur)
    (oracle : Model → SolverResp) (alloc : List (Int × List Int))
    (hsound : ∀ m σ β, oracle m = .solved σ β → m.Satisfies σ β)
    (hnd : ((cs.shards.map fun r => r.id)).Nodup)
    (hok : solveWith oracle cs cfg = .ok alloc) :
    ∀ (s : Int) (ids : List Int), lookupKey alloc s = some ids →
      ∃ r ∈ cs.shards, r.id = s ∧ (ids.length : Int) = r.rf ∧ ids.Nodup ∧
        ((∀ v : Int, (∃ nd ∈ cs.nodes, nd.id = v) ↔
            0 ≤ v ∧ v < (cs.nodes.length : Int)) →
          ∀ v ∈ ids, (lookupNode cs.nodes v).isSome) := by
  intro s ids hlook
  obtain ⟨stF, σ, β, hbuild, horacle, halloc⟩ := solveWith_ok hok
  have hsat := hsound _ _ _ horacle
  obtain ⟨st1, su2, su3, hp1, -, -, -⟩ := allocateBuild_ok hbuild
  obtain ⟨hle, hassign, hcs, -⟩ := allocateBuild_ok_invariants hp1 hbuild
  obtain ⟨acc, hgo, -, hst1⟩ := phase1_ok_inv hp1
  have hcs2 : stF.cs = cs := hcs
  have hgo2 : phase1Go cs cs.shards
      ⟨(initSt cs cfg).model, (initSt cs cfg).assignment, []⟩ = .ok acc := hgo
  have hmem : (s, ids) ∈ alloc := lookupKey_mem alloc s ids hlook
  rw [halloc] at hmem
  unfold decode at hmem
  rw [hcs2] at hmem
  rcases decodeGo_mem stF.assignment σ cs.shards [] _ hmem with
    hfalse | ⟨r, hrmem, hrid⟩
  · cases hfalse
  · have hrid2 : r.id = s := hrid
    obtain ⟨vs, hvs, hvlen, hdiff, hvars⟩ :=
      phase1Go_shard cs cs.shards _ acc hgo2 hnd r hrmem
    have hvsF : lookupKey stF.assignment r.id = some vs := by
      rw [hassign, hst1]
      exact hvs
    have hids : ids = vs.map σ := by
      have hx := decodeGo_entry stF.assignment σ cs.shards [] hnd r hrmem rfl
      have hallocEntry : lookupKey alloc r.id =
          (if vs.map σ = [] then none else some (vs.map σ)) := by
        rw [halloc]
        unfold decode
        rw [hcs2, hx, hvsF]
        rfl
      rw [hrid2, hlook] at hallocEntry
      by_cases hnil : vs.map σ = []
      · rw [if_pos hnil] at hallocEntry
        cases hallocEntry
      · rw [if_neg hnil] at hallocEntry
        exact Option.some.inj hallocEntry
    refine ⟨r, hrmem, hrid2, ?_, ?_, ?_⟩
    · rw [hids]
      simpa using hvlen
    · have hc : Constr.allDiff vs ∈ stF.model.constraints :=
        hle.constrStable
          (show Constr.allDiff vs ∈ st1.model.constraints by
            rw [hst1]
            exact hdiff)
      have hcsat := hsat.2.2 _ hc
      rw [hids]
      simpa [constrSat] using hcsat
    · intro hcanon v hv
      rw [hids] at hv
      obtain ⟨w, hw, hwv⟩ := List.mem_map.mp hv
      obtain ⟨a, b, ha, hb, hdecl⟩ := hvars w hw
      have hdeclF : stF.model.vars[w]? = some ⟨a.id, b.id, allocVarName r.id⟩ :=
        hle.varStable
          (show st1.model.vars[w]? = some ⟨a.id, b.id, allocVarName r.id⟩ by
            rw [hst1]
            exact hdecl)
      obtain ⟨hlo, hhi⟩ := hsat.1 w _ hdeclF
      have haid : a.id = 0 := lookupNode_eq_id cs.nodes 0 a ha
      have hbid : b.id = (cs.nodes.length : Int) - 1 :=
        lookupNode_eq_id cs.nodes _ b hb
      have hlo2 : (0 : Int) ≤ σ w := by
        have : a.id ≤ σ w := hlo
        omega
      have hhi2 : σ w < (cs.nodes.length : Int) := by
        have : σ w ≤ b.id := hhi
        omega
      obtain ⟨nd, hndmem, hndid⟩ := (hcanon (σ w)).mpr ⟨hlo2, hhi2⟩
      rw [← hwv, ← hndid]
      exact lookupNode_isSome_of_mem cs.nodes nd hndmem

def csC1 : ClusterState :=
  { nodes := [{ id := 0, tags := [], resources := [] },
      { id := 2, tags := [], resources := [] },
      { id := 3, tags := [], resources := [] }],
    shards := [{ id := 0, rf := 1, tags := none, demands := [] }],
    currentAssignment := none }

def modelC1 : Model :=
  ((allocateBuild (initSt csC1 defaultConfiguration)).state).model

def oracleC1 : Model → SolverResp := fun m =>
  if m = modelC1 then .solved (fun _ => 1) (fun _ => false) else .notSolved

/-- Claim C1 counterexample: with the non-contiguous node id set
`{0, 2, 3}`, the single slot variable gets the interval domain `[0, 2]`
(bounded by the ids of the nodes keyed `0` and `2`), so a sound solver
may return node id `1` — which names no node of the cluster.  The claim
fails exactly in its "including when the node ids are non-contiguous"
part. -/
theorem c1_counterexample :
    (∀ m σ β, oracleC1 m = .solved σ β → m.Satisfies σ β) ∧
      solveWith oracleC1 csC1 defaultConfiguration = .ok [(0, [1])] ∧
      lookupNode csC1.nodes 1 = none := by
  refine ⟨?_, by decide, by decide⟩
  intro m σ β h
  unfold oracleC1 at h
  split_ifs at h with h1
  injection h with hσ hβ
  subst h1
  rw [← hσ, ← hβ]
  decide

def csC1w : ClusterState :=
  { nodes := [{ id := 0, tags := [], resources := [] }],
    shards := [{ id := 0, rf := 1, tags := none, demands := [] }],
    currentAssignment := none }

def modelC1w : Model :=
  ((allocateBuild (initSt csC1w defaultConfiguration)).state).model

def oracleC1w : Model → SolverResp := fun m =>
  if m = modelC1w then .solved (fun _ => 0) (fun _ => false) else .notSolved

/-- Witness for `c1_allocation_wellformed` at a concrete input. -/
theorem c1_allocation_wellformed_witness :
    ∃ r ∈ csC1w.shards, r.id = 0 ∧ (((([0] : List Int)).length : Int) = r.rf) ∧
      (([0] : List Int)).Nodup ∧
      ((∀ v : Int, (∃ nd ∈ csC1w.nodes, nd.id = v) ↔
          0 ≤ v ∧ v < (csC1w.nodes.length : Int)) →
        ∀ v ∈ ([0] : List Int), (lookupNode csC1w.nodes v).isSome) := by
  refine c1_allocation_wellformed csC1w defaultConfiguration oracleC1w
    [(0, [0])] ?_ (by decide) (by decide) 0 [0] (by decide)
  intro m σ β h
  unfold oracleC1w at h
  split_ifs at h with h1
  injection h with hσ hβ
  subst h1
  rw [← hσ, ← hβ]
  decide

/-- Witness for `c4_insufficient_capacity` at a concrete input: capacity
1 per node, two nodes, one shard demanding 5. -/
theorem c4_insufficient_capacity_witness :
    solveWith (fun _ => SolverResp.notSolved) csC4
      { defaultConfiguration with withResources := true } =
      .err .insufficientCapacity :=
  c4_insufficient_capacity csC4
    { defaultConfiguration with withResources := true }
    (fun _ => SolverResp.notSolved)
    { id := 0, tags := [], resources := [(.disk, 1)] }
    { id := 1, tags := [], resources := [(.disk, 1)] }
    rfl (by decide) (by decide) (by decide) (by decide)
    (Or.inl (by decide))

/-- Witness for `c3_rf_error` at a concrete input. -/
theorem c3_rf_error_witness :
    solveWith (fun _ => SolverResp.notSolved) csC3 defaultConfiguration =
      .err (.rfGreaterThanClusterSize
        ((csC3.shards.filter fun r =>
          decide ((csC3.nodes.length : Int) < r.rf)).map fun r => r.id)) ∧
      (csC3.shards.filter fun r =>
        decide ((csC3.nodes.length : Int) < r.rf)).map (fun r => r.id) ≠ [] :=
  c3_rf_error csC3 defaultConfiguration (fun _ => SolverResp.notSolved)
    { id := 0, tags := [], resources := [] } { id := 0, tags := [], resources := [] }
    (by decide) (by decide) (by decide) ⟨{ id := 7, rf := 2, tags := none, demands := [] }, by decide, by decide⟩


/-! ## Claim C5 — tag affinity (`adhereToNodeTags`)

Helper lemmas: what a successful `tagsGo` run puts into the model, when it
succeeds, and the wayward-id list `adhereToNodeTags` accumulates. -/

theorem lookupNode_mem (l : List NodeV) (k : Int) (n : NodeV)
    (h : lookupNode l k = some n) : n ∈ l := by
  induction l with
  | nil => cases h
  | cons x rest ih =>
      by_cases hx : x.id = k
      · simp only [lookupNode, if_pos hx] at h
        cases h
        exact List.mem_cons_self _ rest
      · simp only [lookupNode, if_neg hx] at h
        exact List.mem_cons_of_mem x (ih h)

/-- Every slot the loop `for i := 0; i < r.rf; i++` reaches contributes a
forbidden-assignment constraint over that slot's variable. -/
theorem tagSlotsGo_mem (tuples : List (List Int)) (vs : List Nat) :
    ∀ (idx : List Nat) (m m2 : Model),
      tagSlotsGo tuples vs idx m = .ok m2 →
      ∀ i ∈ idx, ∀ v, vs[i]? = some v →
        Constr.forbidden [v] tuples ∈ m2.constraints := by
  intro idx
  induction idx with
  | nil =>
      intro m m2 h i hi
      cases hi
  | cons j rest ih =>
      intro m m2 h i hi v hv
      simp only [tagSlotsGo] at h
      cases hj : vs[j]? with
      | none => rw [hj] at h; cases h
      | some w =>
          rw [hj] at h
          rcases List.mem_cons.mp hi with hij | hirest
          · subst hij
            rw [hj] at hv
            injection hv with hwv
            subst hwv
            exact (tagSlotsGo_modelLe tuples vs rest _ _ h).constrStable
              (by simp [Model.addConstr])
          · exact ih _ _ h i hirest v hv

/-- The slot loop cannot panic when every visited index is in range. -/
theorem tagSlotsGo_succeeds (tuples : List (List Int)) (vs : List Nat) :
    ∀ (idx : List Nat) (m : Model), (∀ i ∈ idx, i < vs.length) →
      ∃ m2, tagSlotsGo tuples vs idx m = .ok m2 := by
  intro idx
  induction idx with
  | nil =>
      intro m _
      exact ⟨m, rfl⟩
  | cons j rest ih =>
      intro m hb
      have hj : j < vs.length := hb j (List.mem_cons_self j rest)
      obtain ⟨m2, hm2⟩ := ih (m.addConstr (.forbidden [vs[j]] tuples))
        (fun i hi => hb i (List.mem_cons_of_mem j hi))
      refine ⟨m2, ?_⟩
      simp only [tagSlotsGo, List.getElem?_eq_getElem hj]
      exact hm2

/-- The `rangeIdsWithWaywardTags` list `adhereToNodeTags` accumulates: the
ids of the shards for which every node is forbidden. -/
def waywardOf (nodes : List NodeV) (shards : List ShardV) : List Int :=
  (shards.filter fun r =>
    decide ((forbTuples nodes r).length = nodes.length)).map fun r => r.id

/-- A run of the `adhereToNodeTags` shard loop: when no prior-assignment
slice is too short, it succeeds and appends exactly `waywardOf`. -/
theorem tagsGo_run (cs : ClusterState) (assignment : List (Int × List Nat)) :
    ∀ (l : List ShardV) (m : Model) (w : List Int),
      (∀ r ∈ l, r.rf.toNat ≤ ((lookupKey assignment r.id).getD []).length) →
      ∃ m2, tagsGo cs assignment l (m, w) =
        .ok (m2, w ++ waywardOf cs.nodes l) := by
  intro l
  induction l with
  | nil =>
      intro m w _
      exact ⟨m, by simp [tagsGo, waywardOf]⟩
  | cons r rest ih =>
      intro m w hlen
      have hbound : ∀ i ∈ List.range r.rf.toNat,
          i < ((lookupKey assignment r.id).getD []).length := by
        intro i hi
        have h1 := List.mem_range.mp hi
        have h2 := hlen r (List.mem_cons_self r rest)
        omega
      obtain ⟨m1, hm1⟩ := tagSlotsGo_succeeds (forbTuples cs.nodes r)
        ((lookupKey assignment r.id).getD []) (List.range r.rf.toNat) m hbound
      have hstep : tagsStep cs assignment (m, w) r = .ok (m1,
          if (forbTuples cs.nodes r).length = cs.nodes.length then w ++ [r.id]
          else w) := by
        unfold tagsStep
        dsimp only
        rw [hm1]
      obtain ⟨m2, hm2⟩ := ih m1
        (if (forbTuples cs.nodes r).length = cs.nodes.length then w ++ [r.id]
          else w)
        (fun r2 h2 => hlen r2 (List.mem_cons_of_mem r h2))
      refine ⟨m2, ?_⟩
      simp only [tagsGo]
      rw [hstep]
      dsimp only
      rw [hm2]
      by_cases hp : (forbTuples cs.nodes r).length = cs.nodes.length
      · simp [waywardOf, List.filter_cons, hp, List.append_assoc]
      · simp [waywardOf, List.filter_cons, hp]

/-- The forbidden-assignment constraints a successful `tagsGo` run posts
for every shard and every replica slot. -/
theorem tagsGo_constr (cs : ClusterState) (assignment : List (Int × List Nat)) :
    ∀ (l : List ShardV) (acc acc2 : Model × List Int),
      tagsGo cs assignment l acc = .ok acc2 →
      ∀ r ∈ l, ∀ i ∈ List.range r.rf.toNat, ∀ v,
        ((lookupKey assignment r.id).getD [])[i]? = some v →
        Constr.forbidden [v] (forbTuples cs.nodes r) ∈ acc2.1.constraints := by
  intro l
  induction l with
  | nil =>
      intro acc acc2 h r hr
      cases hr
  | cons x rest ih =>
      intro acc acc2 h r hr i hi v hv
      simp only [tagsGo] at h
      cases hs : tagsStep cs assignment acc x with
      | panicked a s => rw [hs] at h; cases h
      | ok acc1 =>
          rw [hs] at h
          rcases List.mem_cons.mp hr with hrx | hrrest
          · subst hrx
            unfold tagsStep at hs
            dsimp only at hs
            cases hsl : tagSlotsGo (forbTuples cs.nodes r)
                ((lookupKey assignment r.id).getD [])
                (List.range r.rf.toNat) acc.1 with
            | panicked mm s => rw [hsl] at hs; cases hs
            | ok mm =>
                rw [hsl] at hs
                have hmem := tagSlotsGo_mem _ _ _ _ _ hsl i hi v hv
                have hacc1 : acc1.1 = mm := by
                  cases hs
                  rfl
                have hle := tagsGo_modelLe cs assignment rest acc1 acc2 h
                refine hle.constrStable ?_
                rw [hacc1]
                exact hmem
          · exact ih acc1 acc2 h r hrrest i hi v hv

/-- Inversion of a successful tags phase: the wayward list was empty and
only the model changed. -/
theorem phaseTags_ok_inv {st st2 : AllocSt} (h : phaseTags st = .ok st2) :
    ∃ a, tagsGo st.cs st.assignment st.cs.shards (st.model, []) = .ok a ∧
      st2 = { st with model := a.1 } := by
  unfold phaseTags at h
  cases ht : tagsGo st.cs st.assignment st.cs.shards (st.model, []) with
  | panicked a s => rw [ht] at h; cases h
  | ok a =>
      rw [ht] at h
      dsimp only at h
      by_cases hw : a.2 = []
      · rw [if_pos hw] at h
        cases h
        exact ⟨a, rfl, rfl⟩
      · rw [if_neg hw] at h
        cases h

/-- `adhereToNodeTags` in program order: it always builds the
forbidden-assignment constraints, then fails iff some shard's id was
collected into `rangeIdsWithWaywardTags`. -/
theorem phaseTags_run (st : AllocSt)
    (hlen : ∀ r ∈ st.cs.shards,
      r.rf.toNat ≤ ((lookupKey st.assignment r.id).getD []).length) :
    ∃ m2, phaseTags st =
      if waywardOf st.cs.nodes st.cs.shards = [] then
        .ok { st with model := m2 }
      else
        .fail { st with model := m2 }
          (.waywardTags (waywardOf st.cs.nodes st.cs.shards)) := by
  obtain ⟨m2, hm2⟩ :=
    tagsGo_run st.cs st.assignment st.cs.shards st.model [] hlen
  rw [List.nil_append] at hm2
  refine ⟨m2, ?_⟩
  unfold phaseTags
  rw [hm2]

/-- A tags-phase failure propagates through the rest of the build when the
resources phase is disabled. -/
theorem allocateBuild_tagsFail {st st1 stT : AllocSt} {e : AllocErr}
    (h1 : phase1 st = .ok st1)
    (hnr : st1.cfg.withResources = false)
    (hta : st1.cfg.withTagAffinity = true)
    (htf : phaseTags st1 = .fail stT e) :
    allocateBuild st = .fail stT e := by
  unfold allocateBuild
  rw [h1]
  simp only [BOut.andThen]
  rw [if_neg (show ¬ st1.cfg.withResources = true by rw [hnr]; decide)]
  simp only [BOut.andThen]
  rw [if_pos hta, htf]

/-- The model only grows through the second all-different pass and the
churn phase. -/
theorem phasesTail_modelLe {su3 stF : AllocSt}
    (h : ((if (phaseAllDiff2 su3).cfg.withMinimalChurn ||
          (phaseAllDiff2 su3).cfg.maxChurn ≠ noMaxChurn then
        phaseChurn (phaseAllDiff2 su3)
      else .ok (phaseAllDiff2 su3)) : BOut AllocSt) = .ok stF) :
    ModelLe su3.model stF.model := by
  have had : ModelLe su3.model (phaseAllDiff2 su3).model :=
    phaseAllDiff2_modelLe su3
  by_cases hc : ((phaseAllDiff2 su3).cfg.withMinimalChurn ||
      (phaseAllDiff2 su3).cfg.maxChurn ≠ noMaxChurn : Bool)
  · rw [if_pos hc] at h
    exact had.trans (phaseChurn_modelLe h)
  · rw [if_neg hc] at h
    cases h
    exact had

/-- Claim C5: with tag affinity enabled (shard ids pairwise distinct, a
sound solver facade), (a) when some shard's tags are a subset of no
node's tags — and phase 1 itself neither panics nor fails — `Solve`
fails with the wayward-tags error listing every such shard's id, for
every solver facade (so the solver is never consulted); and (b) for
every (shard, node) pair named by a successful result, the shard's tags
are a subset of the node's tags. -/
theorem c5_tag_affinity (cs : ClusterState) (cfg : Configur)
    (oracle : Model → SolverResp)
    (hsound : ∀ m σ β, oracle m = .solved σ β → m.Satisfies σ β)
    (hnd : ((cs.shards.map fun r => r.id)).Nodup)
    (htag : cfg.withTagAffinity = true) :
    ((∃ a, lookupNode cs.nodes 0 = some a) →
      (∃ b, lookupNode cs.nodes ((cs.nodes.length : Int) - 1) = some b) →
      (∀ r ∈ cs.shards, 0 ≤ r.rf) →
      (∀ r ∈ cs.shards, ¬ (cs.nodes.length : Int) < r.rf) →
      cfg.withResources = false →
      (∃ r ∈ cs.shards, ∀ n ∈ cs.nodes, tagsSubset r.tagList n.tags = false) →
      solveWith oracle cs cfg =
          .err (.waywardTags (waywardOf cs.nodes cs.shards)) ∧
        waywardOf cs.nodes cs.shards ≠ [] ∧
        ∀ r ∈ cs.shards,
          (∀ n ∈ cs.nodes, tagsSubset r.tagList n.tags = false) →
            r.id ∈ waywardOf cs.nodes cs.shards) ∧
    (∀ alloc, solveWith oracle cs cfg = .ok alloc →
      ∀ s ids, lookupKey alloc s = some ids →
        ∃ r ∈ cs.shards, r.id = s ∧
          ∀ v ∈ ids, ∀ nd, lookupNode cs.nodes v = some nd →
            tagsSubset r.tagList nd.tags = true) := by
  constructor
  · rintro ⟨a, h0⟩ ⟨b, h1⟩ hrfnn hrfok hnores ⟨rb, hrbmem, hrbbad⟩
    obtain ⟨acc, hgo, hphase1⟩ := phase1_ok_run cs cfg a b h0 h1 hrfnn hrfok
    have hpred : ∀ r ∈ cs.shards,
        (∀ n ∈ cs.nodes, tagsSubset r.tagList n.tags = false) →
        r.id ∈ waywardOf cs.nodes cs.shards := by
      intro r hr hbadr
      have hflen : (forbTuples cs.nodes r).length = cs.nodes.length := by
        unfold forbTuples
        rw [List.length_map, List.filter_length_eq_length]
        intro n hn
        simp [hbadr n hn]
      unfold waywardOf
      exact List.mem_map_of_mem _ (List.mem_filter.mpr ⟨hr, by simp [hflen]⟩)
    have hne : waywardOf cs.nodes cs.shards ≠ [] := by
      intro hnil
      have hm := hpred rb hrbmem hrbbad
      rw [hnil] at hm
      cases hm
    have hlen1 : ∀ r ∈ ({ initSt cs cfg with
        model := acc.model, assignment := acc.assignment } : AllocSt).cs.shards,
        r.rf.toNat ≤
          ((lookupKey ({ initSt cs cfg with
            model := acc.model, assignment := acc.assignment } :
              AllocSt).assignment r.id).getD []).length := by
      intro r hr
      have hr2 : r ∈ cs.shards := hr
      obtain ⟨vs, hvs, hvlen, -, -⟩ :=
        phase1Go_shard cs cs.shards _ acc hgo hnd r hr2
      have hvs2 : lookupKey ({ initSt cs cfg with
          model := acc.model, assignment := acc.assignment } :
            AllocSt).assignment r.id = some vs := hvs
      rw [hvs2]
      simp only [Option.getD_some]
      omega
    obtain ⟨m2, hpt⟩ := phaseTags_run _ hlen1
    have hpt2 : phaseTags ({ initSt cs cfg with
        model := acc.model, assignment := acc.assignment } : AllocSt) =
        if waywardOf cs.nodes cs.shards = [] then
          .ok { initSt cs cfg with
            model := m2, assignment := acc.assignment }
        else
          .fail { initSt cs cfg with
              model := m2, assignment := acc.assignment }
            (.waywardTags (waywardOf cs.nodes cs.shards)) := hpt
    rw [if_neg hne] at hpt2
    have hfail := allocateBuild_tagsFail hphase1
      (show ({ initSt cs cfg with
        model := acc.model, assignment := acc.assignment } :
          AllocSt).cfg.withResources = false from hnores)
      (show ({ initSt cs cfg with
        model := acc.model, assignment := acc.assignment } :
          AllocSt).cfg.withTagAffinity = true from htag)
      hpt2
    refine ⟨?_, hne, hpred⟩
    unfold solveWith
    rw [hfail]
  · intro alloc hok s ids hlook
    obtain ⟨stF, σ, β, hbuild, horacle, halloc⟩ := solveWith_ok hok
    have hsat := hsound _ _ _ horacle
    obtain ⟨st1, su2, su3, hp1, hp2, hp3, hp4⟩ := allocateBuild_ok hbuild
    obtain ⟨hle, hassign, hcs, -⟩ := allocateBuild_ok_invariants hp1 hbuild
    obtain ⟨acc, hgo, -, hst1⟩ := phase1_ok_inv hp1
    have hcs2 : stF.cs = cs := hcs
    have hgo2 : phase1Go cs cs.shards
        ⟨(initSt cs cfg).model, (initSt cs cfg).assignment, []⟩ = .ok acc := hgo
    have hmem : (s, ids) ∈ alloc := lookupKey_mem alloc s ids hlook
    rw [halloc] at hmem
    unfold decode at hmem
    rw [hcs2] at hmem
    rcases decodeGo_mem stF.assignment σ cs.shards [] _ hmem with
      hfalse | ⟨r, hrmem, hrid⟩
    · cases hfalse
    · have hrid2 : r.id = s := hrid
      obtain ⟨vs, hvs, hvlen, -, -⟩ :=
        phase1Go_shard cs cs.shards _ acc hgo2 hnd r hrmem
      have hvsF : lookupKey stF.assignment r.id = some vs := by
        rw [hassign, hst1]
        exact hvs
      have hids : ids = vs.map σ := by
        have hx := decodeGo_entry stF.assignment σ cs.shards [] hnd r hrmem rfl
        have hallocEntry : lookupKey alloc r.id =
            (if vs.map σ = [] then none else some (vs.map σ)) := by
          rw [halloc]
          unfold decode
          rw [hcs2, hx, hvsF]
          rfl
        rw [hrid2, hlook] at hallocEntry
        by_cases hnil : vs.map σ = []
        · rw [if_pos hnil] at hallocEntry
          cases hallocEntry
        · rw [if_neg hnil] at hallocEntry
          exact Option.some.inj hallocEntry
      have hst1cfg : st1.cfg = cfg := by rw [hst1]; rfl
      have hsu2 : su2.cs = st1.cs ∧ su2.cfg = st1.cfg ∧
          su2.assignment = st1.assignment := by
        by_cases hr2 : st1.cfg.withResources
        · rw [if_pos hr2] at hp2
          have hf := phaseResources_frame st1
          rw [hp2] at hf
          exact hf
        · rw [if_neg hr2] at hp2
          cases hp2
          exact ⟨rfl, rfl, rfl⟩
      have htag2 : su2.cfg.withTagAffinity = true := by
        rw [hsu2.2.1, hst1cfg]
        exact htag
      rw [if_pos htag2] at hp3
      obtain ⟨ta, hta, hsu3⟩ := phaseTags_ok_inv hp3
      have hsu2cs : su2.cs = cs := by rw [hsu2.1, hst1]; rfl
      have hsu2as : su2.assignment = acc.assignment := by
        rw [hsu2.2.2, hst1]
      rw [hsu2cs, hsu2as] at hta
      refine ⟨r, hrmem, hrid2, ?_⟩
      intro v hv nd hnd2
      rw [hids] at hv
      obtain ⟨w, hwmem, hwv⟩ := List.mem_map.mp hv
      obtain ⟨i, hilt, hiw⟩ := List.mem_iff_getElem.mp hwmem
      have hvlen2 : vs.length = r.rf.toNat := by omega
      have hirange : i ∈ List.range r.rf.toNat := List.mem_range.mpr (by omega)
      have hslot : ((lookupKey acc.assignment r.id).getD [])[i]? = some w := by
        rw [hvs]
        simp only [Option.getD_some]
        rw [List.getElem?_eq_getElem hilt, hiw]
      have hconstr :=
        tagsGo_constr cs acc.assignment cs.shards _ _ hta r hrmem i hirange
          w hslot
      have hleF : ModelLe su3.model stF.model := phasesTail_modelLe hp4
      have hconstrF : Constr.forbidden [w] (forbTuples cs.nodes r) ∈
          stF.model.constraints := by
        refine hleF.constrStable ?_
        rw [hsu3]
        exact hconstr
      have hcsat := hsat.2.2 _ hconstrF
      simp only [constrSat] at hcsat
      by_contra hfalse2
      have hsubf : tagsSubset r.tagList nd.tags = false := by
        cases hsub : tagsSubset r.tagList nd.tags
        · rfl
        · exact absurd hsub hfalse2
      have hndmem : nd ∈ cs.nodes := lookupNode_mem cs.nodes v nd hnd2
      have hndid : nd.id = v := lookupNode_eq_id cs.nodes v nd hnd2
      have htuple : [nd.id] ∈ forbTuples cs.nodes r := by
        unfold forbTuples
        exact List.mem_map_of_mem _ (List.mem_filter.mpr ⟨hndmem, by simp [hsubf]⟩)
      refine hcsat _ htuple ?_
      simp only [List.map_cons, List.map_nil]
      rw [hwv, hndid]

def csC5w : ClusterState :=
  { nodes := [{ id := 0, tags := [], resources := [] }],
    shards := [{ id := 5, rf := 1, tags := some ["a"], demands := [] }],
    currentAssignment := none }

def cfgC5w : Configur := { defaultConfiguration with withTagAffinity := true }

/-- Witness for `c5_tag_affinity` at a concrete input: one untagged node,
one shard requiring tag "a" — `Solve` fails with the wayward-tags error
naming shard 5, whatever the facade would answer. -/
theorem c5_tag_affinity_witness :
    solveWith (fun _ => SolverResp.notSolved) csC5w cfgC5w =
        .err (.waywardTags (waywardOf csC5w.nodes csC5w.shards)) ∧
      waywardOf csC5w.nodes csC5w.shards ≠ [] ∧
      ∀ r ∈ csC5w.shards,
        (∀ n ∈ csC5w.nodes, tagsSubset r.tagList n.tags = false) →
          r.id ∈ waywardOf csC5w.nodes csC5w.shards :=
  (c5_tag_affinity csC5w cfgC5w (fun _ => SolverResp.notSolved)
      (fun _ _ _ h => SolverResp.noConfusion h) (by decide) rfl).1
    ⟨{ id := 0, tags := [], resources := [] }, by decide⟩
    ⟨{ id := 0, tags := [], resources := [] }, by decide⟩
    (by decide) (by decide) rfl
    ⟨{ id := 5, rf := 1, tags := some ["a"], demands := [] }, by decide,
      by decide⟩

/-! ## Claim C6 — the churn cap (`adhereToChurnConstraint`) -/

/-- Spec-level churn measure over a returned allocation: the number of
(shard, replica-slot) pairs whose prior node still exists in the cluster
but whose new assignment differs from the prior one. -/
def churnCountSpec (cs : ClusterState) (alloc : List (Int × List Int)) : Nat :=
  (cs.shards.map fun r =>
    match lookupKey ((cs.currentAssignment).getD []) r.id with
    | none => 0
    | some prevIds =>
        ((lookupKey alloc r.id).getD []).enum.countP fun p =>
          match prevIds[p.1]? with
          | none => false
          | some pr =>
              (lookupNode cs.nodes pr).isSome && decide (p.2 ≠ pr)).sum

theorem countP_enumFrom_map (σ : Nat → Int) (P : Nat × Int → Bool) :
    ∀ (vs : List Nat) (n : Nat),
      ((vs.map σ).enumFrom n).countP P =
        (vs.enumFrom n).countP fun p => P (p.1, σ p.2) := by
  intro vs
  induction vs with
  | nil => intro n; rfl
  | cons v rest ih =>
      intro n
      simp [List.countP_cons, ih]

/-- Every churn indicator built by the slot loop leaves its enforced
linear constraint and its prior-node constant declaration in the final
model. -/
theorem churnSlotsGo_facts (nodes : List NodeV) (rid : Int)
    (prevIds : List Int) :
    ∀ (slots : List (Nat × Nat)) (m : Model) (infos : List ChurnInfo)
      (m2 : Model) (infos2 : List ChurnInfo),
      churnSlotsGo nodes rid prevIds slots (m, infos) = .ok (m2, infos2) →
      ∀ info ∈ infos2, info ∈ infos ∨
        (Constr.linearEnf [info.iv, info.cvar] [1, -1] 0 0 0
            [⟨info.lit, false⟩] ∈ m2.constraints ∧
          ∃ nm, m2.vars[info.cvar]? = some ⟨info.prev, info.prev, nm⟩) := by
  intro slots
  induction slots with
  | nil =>
      intro m infos m2 infos2 h info hmem
      cases h
      exact Or.inl hmem
  | cons p rest ih =>
      obtain ⟨i, iv⟩ := p
      intro m infos m2 infos2 h info hmem
      simp only [churnSlotsGo] at h
      cases hp : prevIds[i]? with
      | none => rw [hp] at h; cases h
      | some pr =>
          rw [hp] at h
          dsimp only at h
          cases hn : lookupNode nodes pr with
          | none =>
              rw [hn] at h
              exact ih _ _ _ _ h info hmem
          | some nd =>
              rw [hn] at h
              dsimp only at h
              rcases ih _ _ _ _ h info hmem with hin | hnew
              · rcases List.mem_append.mp hin with hold | hone
                · exact Or.inl hold
                · have heq := List.mem_singleton.mp hone
                  subst heq
                  refine Or.inr ?_
                  have hle := churnSlotsGo_modelLe nodes rid prevIds rest _ _ h
                  constructor
                  · refine hle.constrStable ?_
                    simp [Model.addConstr]
                  · refine ⟨churnConstName rid i pr, hle.varStable ?_⟩
                    exact newConstant_decl _ pr (churnConstName rid i pr)
              · exact Or.inr hnew

theorem churnShardsGo_facts (nodes : List NodeV)
    (prevMap : List (Int × List Int)) (assignment : List (Int × List Nat)) :
    ∀ (l : List ShardV) (m : Model) (infos : List ChurnInfo)
      (m2 : Model) (infos2 : List ChurnInfo),
      churnShardsGo nodes prevMap assignment l (m, infos) = .ok (m2, infos2) →
      ∀ info ∈ infos2, info ∈ infos ∨
        (Constr.linearEnf [info.iv, info.cvar] [1, -1] 0 0 0
            [⟨info.lit, false⟩] ∈ m2.constraints ∧
          ∃ nm, m2.vars[info.cvar]? = some ⟨info.prev, info.prev, nm⟩) := by
  intro l
  induction l with
  | nil =>
      intro m infos m2 infos2 h info hmem
      cases h
      exact Or.inl hmem
  | cons r rest ih =>
      intro m infos m2 infos2 h info hmem
      simp only [churnShardsGo] at h
      cases hp : lookupKey prevMap r.id with
      | none =>
          rw [hp] at h
          exact ih _ _ _ _ h info hmem
      | some prevIds =>
          rw [hp] at h
          dsimp only at h
          cases hs : churnSlotsGo nodes r.id prevIds
              ((lookupKey assignment r.id).getD []).enum (m, infos) with
          | panicked a s => rw [hs] at h; cases h
          | ok a =>
              obtain ⟨m1, infos1⟩ := a
              rw [hs] at h
              rcases ih _ _ _ _ h info hmem with hin | hreach
              · rcases churnSlotsGo_facts nodes r.id prevIds _ _ _ _ _ hs
                    info hin with hold | hfacts
                · exact Or.inl hold
                · have hle :=
                    churnShardsGo_modelLe nodes prevMap assignment rest _ _ h
                  obtain ⟨nm, hv⟩ := hfacts.2
                  exact Or.inr ⟨hle.constrStable hfacts.1, nm, hle.varStable hv⟩
              · exact Or.inr hreach

/-- The indicators added by the slot loop count exactly the slots whose
prior node is live and whose assigned value differs from it. -/
theorem churnSlotsGo_count (nodes : List NodeV) (rid : Int)
    (prevIds : List Int) (σ : Nat → Int) :
    ∀ (slots : List (Nat × Nat)) (m : Model) (infos : List ChurnInfo)
      (m2 : Model) (infos2 : List ChurnInfo),
      churnSlotsGo nodes rid prevIds slots (m, infos) = .ok (m2, infos2) →
      ∃ added, infos2 = infos ++ added ∧
        (slots.countP fun p =>
          match prevIds[p.1]? with
          | none => false
          | some pr => (lookupNode nodes pr).isSome && decide (σ p.2 ≠ pr)) =
        added.countP fun info => decide (σ info.iv ≠ info.prev) := by
  intro slots
  induction slots with
  | nil =>
      intro m infos m2 infos2 h
      cases h
      exact ⟨[], by simp⟩
  | cons p rest ih =>
      obtain ⟨i, iv⟩ := p
      intro m infos m2 infos2 h
      simp only [churnSlotsGo] at h
      cases hp : prevIds[i]? with
      | none => rw [hp] at h; cases h
      | some pr =>
          rw [hp] at h
          dsimp only at h
          cases hn : lookupNode nodes pr with
          | none =>
              rw [hn] at h
              obtain ⟨added, ha, hc⟩ := ih _ _ _ _ h
              refine ⟨added, ha, ?_⟩
              rw [List.countP_cons, hc]
              simp [hp, hn]
          | some nd =>
              rw [hn] at h
              dsimp only at h
              obtain ⟨added, ha, hc⟩ := ih _ _ _ _ h
              refine ⟨⟨(m.newLiteral (churnLitName rid i pr)).2, iv,
                ((m.newLiteral (churnLitName rid i pr)).1.newConstant pr
                  (churnConstName rid i pr)).2, pr⟩ :: added, ?_, ?_⟩
              · rw [ha, List.append_assoc]
                rfl
              · rw [List.countP_cons, List.countP_cons, hc]
                congr 1
                simp [hp, hn]

theorem churnShardsGo_count (nodes : List NodeV)
    (prevMap : List (Int × List Int)) (assignment : List (Int × List Nat))
    (σ : Nat → Int) :
    ∀ (l : List ShardV) (m : Model) (infos : List ChurnInfo)
      (m2 : Model) (infos2 : List ChurnInfo),
      churnShardsGo nodes prevMap assignment l (m, infos) = .ok (m2, infos2) →
      ∃ added, infos2 = infos ++ added ∧
        (l.map fun r =>
          match lookupKey prevMap r.id with
          | none => 0
          | some prevIds =>
              ((lookupKey assignment r.id).getD []).enum.countP fun p =>
                match prevIds[p.1]? with
                | none => false
                | some pr =>
                    (lookupNode nodes pr).isSome && decide (σ p.2 ≠ pr)).sum =
        added.countP fun info => decide (σ info.iv ≠ info.prev) := by
  intro l
  induction l with
  | nil =>
      intro m infos m2 infos2 h
      cases h
      exact ⟨[], by simp⟩
  | cons r rest ih =>
      intro m infos m2 infos2 h
      simp only [churnShardsGo] at h
      cases hp : lookupKey prevMap r.id with
      | none =>
          rw [hp] at h
          obtain ⟨added, ha, hc⟩ := ih _ _ _ _ h
          refine ⟨added, ha, ?_⟩
          simp only [List.map_cons, List.sum_cons, hp]
          simpa using hc
      | some prevIds =>
          rw [hp] at h
          dsimp only at h
          cases hs : churnSlotsGo nodes r.id prevIds
              ((lookupKey assignment r.id).getD []).enum (m, infos) with
          | panicked a s => rw [hs] at h; cases h
          | ok a =>
              obtain ⟨m1, infos1⟩ := a
              rw [hs] at h
              obtain ⟨added1, ha1, hc1⟩ :=
                churnSlotsGo_count nodes r.id prevIds σ _ _ _ _ _ hs
              obtain ⟨added2, ha2, hc2⟩ := ih _ _ _ _ h
              refine ⟨added1 ++ added2, ?_, ?_⟩
              · rw [ha2, ha1, List.append_assoc]
              · simp only [List.map_cons, List.sum_cons, hp,
                  List.countP_append]
                rw [hc1, hc2]

/-- Inversion of a successful churn phase under a configured churn cap:
the prior map existed, the indicator construction succeeded, and the
final model contains the at-most-K constraint over the indicators. -/
theorem phaseChurn_ok_facts {st stF : AllocSt} (h : phaseChurn st = .ok stF)
    (hK : st.cfg.maxChurn ≠ noMaxChurn) :
    ∃ prevMap m infos,
      st.cs.currentAssignment = some prevMap ∧
      churnShardsGo st.cs.nodes prevMap st.assignment st.cs.shards
        (st.model, []) = .ok (m, infos) ∧
      ModelLe m stF.model ∧
      Constr.atMostK st.cfg.maxChurn
        (infos.map fun info => LitRef.mk info.lit true) ∈
          stF.model.constraints := by
  unfold phaseChurn at h
  cases hc : st.cs.currentAssignment with
  | none => rw [hc] at h; cases h
  | some prevMap =>
      rw [hc] at h
      dsimp only at h
      cases hg : churnShardsGo st.cs.nodes prevMap st.assignment st.cs.shards
          (st.model, []) with
      | panicked a s => rw [hg] at h; cases h
      | ok a =>
          obtain ⟨m, infos⟩ := a
          rw [hg] at h
          dsimp only at h
          cases h
          refine ⟨prevMap, m, infos, rfl, hg, ?_, ?_⟩
          · dsimp only
            rw [if_pos hK]
            refine ModelLe.trans ?_ (modelLe_addConstr _ _)
            by_cases hmin : st.cfg.withMinimalChurn
            · rw [if_pos hmin]
              exact modelLe_addObjective _ _
            · rw [if_neg hmin]
              exact ModelLe.refl _
          · dsimp only
            rw [if_pos hK]
            simp [Model.addConstr]

/-- Claim C6 (amended): whenever a churn cap `K ≠ -1` is configured
(shard ids pairwise distinct, a sound solver facade) and `Solve` returns
an allocation, the number of (shard, replica-slot) pairs whose prior
node is still in the cluster but whose new assignment differs from the
prior one is at most `K`.  (The claim's further "never reads a prior
list out of bounds" part is refuted separately: a prior list shorter
than `rf` makes the churn pass panic.) -/
theorem c6_max_churn (cs : ClusterState) (cfg : Configur)
    (oracle : Model → SolverResp) (alloc : List (Int × List Int))
    (hsound : ∀ m σ β, oracle m = .solved σ β → m.Satisfies σ β)
    (hnd : ((cs.shards.map fun r => r.id)).Nodup)
    (hK : cfg.maxChurn ≠ noMaxChurn)
    (hok : solveWith oracle cs cfg = .ok alloc) :
    (churnCountSpec cs alloc : Int) ≤ cfg.maxChurn := by
  obtain ⟨stF, σ, β, hbuild, horacle, halloc⟩ := solveWith_ok hok
  have hsat := hsound _ _ _ horacle
  obtain ⟨st1, su2, su3, hp1, hp2, hp3, hp4⟩ := allocateBuild_ok hbuild
  obtain ⟨hle, hassign, hcs, -⟩ := allocateBuild_ok_invariants hp1 hbuild
  obtain ⟨acc, hgo, -, hst1⟩ := phase1_ok_inv hp1
  have hcs2 : stF.cs = cs := hcs
  have hgo2 : phase1Go cs cs.shards
      ⟨(initSt cs cfg).model, (initSt cs cfg).assignment, []⟩ = .ok acc := hgo
  have hsu2 : su2.cs = st1.cs ∧ su2.cfg = st1.cfg ∧
      su2.assignment = st1.assignment := by
    by_cases hr2 : st1.cfg.withResources
    · rw [if_pos hr2] at hp2
      have hf := phaseResources_frame st1
      rw [hp2] at hf
      exact hf
    · rw [if_neg hr2] at hp2
      cases hp2
      exact ⟨rfl, rfl, rfl⟩
  have hsu3 : su3.cs = su2.cs ∧ su3.cfg = su2.cfg ∧
      su3.assignment = su2.assignment := by
    by_cases ht2 : su2.cfg.withTagAffinity
    · rw [if_pos ht2] at hp3
      have hf := phaseTags_frame su2
      rw [hp3] at hf
      exact hf
    · rw [if_neg ht2] at hp3
      cases hp3
      exact ⟨rfl, rfl, rfl⟩
  have hcfg4 : (phaseAllDiff2 su3).cfg = cfg := by
    rw [(phaseAllDiff2_frame su3).2.1, hsu3.2.1, hsu2.2.1, hst1]
    rfl
  have hcs4 : (phaseAllDiff2 su3).cs = cs := by
    rw [(phaseAllDiff2_frame su3).1, hsu3.1, hsu2.1, hst1]
    rfl
  have has4 : (phaseAllDiff2 su3).assignment = acc.assignment := by
    rw [(phaseAllDiff2_frame su3).2.2, hsu3.2.2, hsu2.2.2, hst1]
  have hcond : ((phaseAllDiff2 su3).cfg.withMinimalChurn ||
      (phaseAllDiff2 su3).cfg.maxChurn ≠ noMaxChurn : Bool) = true := by
    rw [hcfg4]
    simp [hK]
  rw [if_pos hcond] at hp4
  obtain ⟨prevMap, mC, infosC, hprev, hgoC, hleC, hatmost⟩ :=
    phaseChurn_ok_facts hp4
      (show (phaseAllDiff2 su3).cfg.maxChurn ≠ noMaxChurn by
        rw [hcfg4]; exact hK)
  rw [hcs4, has4] at hgoC
  rw [hcs4] at hprev
  have hshard : ∀ r ∈ cs.shards,
      (match lookupKey prevMap r.id with
       | none => 0
       | some prevIds =>
           ((lookupKey alloc r.id).getD []).enum.countP
             fun (p : Nat × Int) =>
               match prevIds[p.1]? with
               | none => false
               | some pr =>
                   (lookupNode cs.nodes pr).isSome && decide (p.2 ≠ pr)) =
      (match lookupKey prevMap r.id with
       | none => 0
       | some prevIds =>
           ((lookupKey acc.assignment r.id).getD []).enum.countP
             fun (p : Nat × Nat) =>
               match prevIds[p.1]? with
               | none => false
               | some pr =>
                   (lookupNode cs.nodes pr).isSome && decide (σ p.2 ≠ pr)) := by
    intro r hr
    cases hpm : lookupKey prevMap r.id with
    | none => simp [hpm]
    | some prevIds =>
        obtain ⟨vs, hvs, -, -, -⟩ :=
          phase1Go_shard cs cs.shards _ acc hgo2 hnd r hr
        have hvsF : lookupKey stF.assignment r.id = some vs := by
          rw [hassign, hst1]
          exact hvs
        have hentry : ((lookupKey alloc r.id).getD []) = vs.map σ := by
          have hx := decodeGo_entry stF.assignment σ cs.shards [] hnd r hr rfl
          have hallocEntry : lookupKey alloc r.id =
              (if vs.map σ = [] then none else some (vs.map σ)) := by
            rw [halloc]
            unfold decode
            rw [hcs2, hx, hvsF]
            rfl
          rw [hallocEntry]
          by_cases hnil : vs.map σ = []
          · rw [if_pos hnil, hnil]
            rfl
          · rw [if_neg hnil]
            rfl
        have hacc : ((lookupKey acc.assignment r.id).getD []) = vs := by
          rw [hvs]
          rfl
        simp only [hpm]
        rw [hentry, hacc]
        exact countP_enumFrom_map σ (fun p =>
          match prevIds[p.1]? with
          | none => false
          | some pr =>
              (lookupNode cs.nodes pr).isSome && decide (p.2 ≠ pr)) vs 0
  have hspec : churnCountSpec cs alloc =
      (cs.shards.map fun r =>
        match lookupKey prevMap r.id with
        | none => 0
        | some prevIds =>
            ((lookupKey acc.assignment r.id).getD []).enum.countP
              fun (p : Nat × Nat) =>
                match prevIds[p.1]? with
                | none => false
                | some pr =>
                    (lookupNode cs.nodes pr).isSome &&
                      decide (σ p.2 ≠ pr)).sum := by
    unfold churnCountSpec
    rw [hprev]
    exact congrArg List.sum (List.map_congr_left hshard)
  obtain ⟨added, hadded, hcount⟩ :=
    churnShardsGo_count cs.nodes prevMap acc.assignment σ cs.shards
      _ _ _ _ hgoC
  have hinfos : infosC = added := by simpa using hadded
  rw [← hinfos] at hcount
  have hpoint : ∀ info ∈ infosC, decide (σ info.iv ≠ info.prev) = true →
      litVal β (LitRef.mk info.lit true) = true := by
    intro info hmem hdiff
    rcases churnShardsGo_facts cs.nodes prevMap acc.assignment cs.shards
        _ _ _ _ hgoC info hmem with hfalse | ⟨hconstr, nm, hvar⟩
    · cases hfalse
    · have hconstrF := hleC.constrStable hconstr
      have hvarF := hleC.varStable hvar
      have hsatc := hsat.2.2 _ hconstrF
      have hdom := hsat.1 _ _ hvarF
      simp only [constrSat] at hsatc
      by_contra hb
      have hbl : β info.lit = true := by
        cases hval : β info.lit
        · exact absurd (by simp [litVal, hval]) hb
        · rfl
      have hbounds := hsatc (by
        intro l hl
        have hleq := List.mem_singleton.mp hl
        subst hleq
        simp [litVal, hbl])
      obtain ⟨hlo2, hhi2⟩ := hbounds
      have hz : (List.zipWith (fun c v => c * σ v) [1, -1]
          [info.iv, info.cvar]).sum =
            1 * σ info.iv + (-1 * σ info.cvar + 0) := rfl
      rw [hz] at hlo2 hhi2
      have hd1 : info.prev ≤ σ info.cvar := hdom.1
      have hd2 : σ info.cvar ≤ info.prev := hdom.2
      have hneq : σ info.iv ≠ info.prev := of_decide_eq_true hdiff
      apply hneq
      omega
  have hmono : infosC.countP (fun info => decide (σ info.iv ≠ info.prev)) ≤
      infosC.countP fun info => litVal β (LitRef.mk info.lit true) :=
    List.countP_mono_left hpoint
  have hsatK := hsat.2.2 _ hatmost
  simp only [constrSat] at hsatK
  rw [hcfg4] at hsatK
  have hmap : (infosC.map fun info => LitRef.mk info.lit true).countP
      (litVal β) = infosC.countP fun info =>
        litVal β (LitRef.mk info.lit true) := by
    rw [List.countP_map]
    rfl
  rw [hmap] at hsatK
  rw [hspec, hcount]
  exact le_trans (by exact_mod_cast hmono) hsatK

def csC6 : ClusterState :=
  { nodes := [{ id := 0, tags := [], resources := [] },
      { id := 1, tags := [], resources := [] }],
    shards := [{ id := 0, rf := 2, tags := none, demands := [] }],
    currentAssignment := some [(0, [0])] }

def cfgC6 : Configur := { defaultConfiguration with maxChurn := 1 }

/-- Claim C6 counterexample: with a churn cap configured and a prior
assignment whose replica list is shorter than the shard's `rf`, the
churn pass indexes the prior list out of range and panics — for every
solver facade — refuting the claim's "never reads a prior list out of
bounds" part. -/
theorem c6_counterexample :
    (∀ oracle : Model → SolverResp,
        solveWith oracle csC6 cfgC6 = .panicked panicIndexRange) ∧
      cfgC6.maxChurn ≠ noMaxChurn ∧
      ∃ prev, lookupKey ((csC6.currentAssignment).getD []) 0 = some prev ∧
        ∃ r ∈ csC6.shards, r.id = 0 ∧ (prev.length : Int) < r.rf := by
  refine ⟨fun oracle => rfl, by decide, [0], by decide,
    ⟨{ id := 0, rf := 2, tags := none, demands := [] }, by decide, by decide,
      by decide⟩⟩

def csC6w : ClusterState :=
  { nodes := [{ id := 0, tags := [], resources := [] },
      { id := 1, tags := [], resources := [] }],
    shards := [{ id := 0, rf := 1, tags := none, demands := [] }],
    currentAssignment := some [(0, [0])] }

def cfgC6w : Configur := { defaultConfiguration with maxChurn := 0 }

def modelC6w : Model :=
  ((allocateBuild (initSt csC6w cfgC6w)).state).model

def oracleC6w : Model → SolverResp := fun m =>
  if m = modelC6w then .solved (fun _ => 0) (fun _ => true) else .notSolved

/-- Witness for `c6_max_churn` at a concrete input: cap 0, prior
assignment kept, churn 0. -/
theorem c6_max_churn_witness :
    (churnCountSpec csC6w [(0, [0])] : Int) ≤ cfgC6w.maxChurn :=
  c6_max_churn csC6w cfgC6w oracleC6w [(0, [0])]
    (by
      intro m σ β h
      unfold oracleC6w at h
      split_ifs at h with h1
      injection h with hσ hβ
      subst h1
      rw [← hσ, ← hβ]
      decide)
    (by decide) (by decide) (by decide)

end AllocSpec
